import Mathlib

/-!
Verification development for the smart voice-command detection subsystem:
`src/core/voice_detector.py`, `src/core/phoneme_variants.py`,
`src/utils/matcher.py`, `src/utils/validators.py`.

Strings are modelled as `List Char` (`Str`).  Python's `str.lower` is
modelled as ASCII lowercasing (every string in the catalog and in the
substitution tables is already lower case, and the regex class `\w` is
modelled over the character repertoire actually used by the program:
ASCII alphanumerics, the underscore, and the accented letters that occur
in the phonetic tables).  Scores, thresholds and timestamps are rationals.
Fallible Python code (exceptions) is modelled with `Option`.
-/

/-- Python strings, modelled as lists of characters. -/
abbrev Str := List Char

/-- Convert a list of Lean string literals to the `Str` representation. -/
def wlist (ws : List String) : List Str := ws.map String.toList

/-- Python `str.lstrip()` restricted to whitespace. -/
def pyLstrip (s : Str) : Str := s.dropWhile Char.isWhitespace

/-- Python `str.strip()`: drop whitespace from both ends. -/
def pyStrip (s : Str) : Str := ((pyLstrip s).reverse.dropWhile Char.isWhitespace).reverse

/-- Python `str.lower()` (ASCII model; every character the program
manipulates is either ASCII or an already-lower-case accented letter). -/
def pyLower (s : Str) : Str := s.map Char.toLower

/-- Dropping a prefix never lengthens a list (termination helper). -/
theorem lengthDropWhileLe {α : Type} (p : α → Bool) (l : List α) :
    (l.dropWhile p).length ≤ l.length := by
  induction l with
  | nil => simp [List.dropWhile]
  | cons a t ih =>
    by_cases h : p a
    · simpa [List.dropWhile, h] using Nat.le_succ_of_le ih
    · simp [List.dropWhile, h]

/-- Structural worker for `pySplit`; the fuel argument (always at least
the string length at call sites) keeps the recursion structural so that
the kernel can evaluate it. -/
def pySplitAux : ℕ → Str → List Str
  | 0, _ => []
  | _ + 1, [] => []
  | fuel + 1, c :: cs =>
    if c.isWhitespace then pySplitAux fuel cs
    else (c :: cs.takeWhile (fun d => !d.isWhitespace)) ::
      pySplitAux fuel (cs.dropWhile (fun d => !d.isWhitespace))

/-- Python `str.split()` with no argument: split on whitespace runs,
producing no empty tokens. -/
def pySplit (s : Str) : List Str := pySplitAux s.length s

/-- The fuel argument of `pySplitAux` is irrelevant once sufficient. -/
theorem pySplitAux_congr :
    ∀ (fuel fuel' : ℕ) (s : Str), s.length ≤ fuel → s.length ≤ fuel' →
      pySplitAux fuel s = pySplitAux fuel' s := by
  intro fuel
  induction fuel with
  | zero =>
    intro fuel' s h _
    have : s = [] := List.length_eq_zero.mp (Nat.le_zero.mp h)
    subst this
    cases fuel' <;> rfl
  | succ n ih =>
    intro fuel' s h h'
    cases s with
    | nil => cases fuel' <;> rfl
    | cons c cs =>
      cases fuel' with
      | zero => exact absurd h' (by simp)
      | succ n' =>
        simp only [pySplitAux]
        by_cases hw : c.isWhitespace
        · rw [if_pos hw, if_pos hw]
          exact ih n' cs (by simp at h; omega) (by simp at h'; omega)
        · rw [if_neg hw, if_neg hw]
          have hd := lengthDropWhileLe (fun d => !d.isWhitespace) cs
          have hcs : cs.length ≤ n := by simp at h; omega
          have hcs' : cs.length ≤ n' := by simp at h'; omega
          rw [ih n' _ (le_trans hd hcs) (le_trans hd hcs')]

/-- Unfolding equation of `pySplit` on `[]`. -/
theorem pySplit_nil : pySplit [] = [] := rfl

/-- Unfolding equation of `pySplit` on a cons cell. -/
theorem pySplit_cons (c : Char) (cs : Str) :
    pySplit (c :: cs) =
      if c.isWhitespace then pySplit cs
      else (c :: cs.takeWhile (fun d => !d.isWhitespace)) ::
        pySplit (cs.dropWhile (fun d => !d.isWhitespace)) := by
  show pySplitAux (c :: cs).length (c :: cs) = _
  simp only [List.length_cons, pySplitAux]
  by_cases hw : c.isWhitespace
  · rw [if_pos hw, if_pos hw, pySplit]
  · rw [if_neg hw, if_neg hw, pySplit]
    have hd := lengthDropWhileLe (fun d => !d.isWhitespace) cs
    rw [pySplitAux_congr cs.length (cs.dropWhile (fun d => !d.isWhitespace)).length _ hd le_rfl]

/-- Python `" ".join(parts)`. -/
def spaceJoin (parts : List Str) : Str := List.intercalate [' '] parts

/-- Python `pat in hay` (substring containment). -/
def containsSub (hay pat : Str) : Bool :=
  match hay with
  | [] => pat.isEmpty
  | _ :: t => pat.isPrefixOf hay || containsSub t pat

/-- Structural worker for `pyReplace` (fuel keeps recursion structural). -/
def pyReplaceAux (pat rep : Str) : ℕ → Str → Str
  | 0, s => s
  | _ + 1, [] => []
  | fuel + 1, c :: cs =>
    if pat.isPrefixOf (c :: cs) && !pat.isEmpty then
      rep ++ pyReplaceAux pat rep fuel (cs.drop (pat.length - 1))
    else
      c :: pyReplaceAux pat rep fuel cs

/-- Python `str.replace(pat, rep)`: replace all non-overlapping
occurrences left to right.  (Guarded against the empty pattern, which the
program never uses.) -/
def pyReplace (pat rep : Str) (s : Str) : Str := pyReplaceAux pat rep s.length s

/-- The fuel argument of `pyReplaceAux` is irrelevant once sufficient. -/
theorem pyReplaceAux_congr (pat rep : Str) :
    ∀ (fuel fuel' : ℕ) (s : Str), s.length ≤ fuel → s.length ≤ fuel' →
      pyReplaceAux pat rep fuel s = pyReplaceAux pat rep fuel' s := by
  intro fuel
  induction fuel with
  | zero =>
    intro fuel' s h _
    have : s = [] := List.length_eq_zero.mp (Nat.le_zero.mp h)
    subst this
    cases fuel' <;> rfl
  | succ n ih =>
    intro fuel' s h h'
    cases s with
    | nil => cases fuel' <;> rfl
    | cons c cs =>
      cases fuel' with
      | zero => exact absurd h' (by simp)
      | succ n' =>
        simp only [pyReplaceAux]
        by_cases hp : (pat.isPrefixOf (c :: cs) && !pat.isEmpty) = true
        · rw [if_pos hp, if_pos hp]
          have hd := List.length_drop (pat.length - 1) cs
          have hcs : cs.length ≤ n := by simp at h; omega
          have hcs' : cs.length ≤ n' := by simp at h'; omega
          rw [ih n' _ (by omega) (by omega)]
        · rw [if_neg hp, if_neg hp]
          rw [ih n' cs (by simp at h; omega) (by simp at h'; omega)]

/-- Unfolding equation of `pyReplace` on `[]`. -/
theorem pyReplace_nil (pat rep : Str) : pyReplace pat rep [] = [] := rfl

/-- Unfolding equation of `pyReplace` on a cons cell. -/
theorem pyReplace_cons (pat rep : Str) (c : Char) (cs : Str) :
    pyReplace pat rep (c :: cs) =
      if pat.isPrefixOf (c :: cs) && !pat.isEmpty then
        rep ++ pyReplace pat rep (cs.drop (pat.length - 1))
      else
        c :: pyReplace pat rep cs := by
  show pyReplaceAux pat rep (c :: cs).length (c :: cs) = _
  simp only [List.length_cons, pyReplaceAux]
  by_cases hp : (pat.isPrefixOf (c :: cs) && !pat.isEmpty) = true
  · rw [if_pos hp, if_pos hp, pyReplace]
    have hd := List.length_drop (pat.length - 1) cs
    rw [pyReplaceAux_congr pat rep cs.length (cs.drop (pat.length - 1)).length _ (by omega) le_rfl]
  · rw [if_neg hp, if_neg hp, pyReplace]

/-- Model of adding one element to a Python `set` accumulated in
insertion order. -/
def insertIfAbsent (l : List Str) (x : Str) : List Str :=
  if x ∈ l then l else l ++ [x]

/-- Model of Python `list(set(xs))`: deduplicate keeping first
occurrences (the concrete iteration order of a CPython `set` is
unspecified; any duplicate-free enumeration is a faithful model, and no
property proved below depends on the order chosen). -/
def pyDedup (xs : List Str) : List Str := xs.foldl insertIfAbsent []

/-! ## PhonemeVariants (`src/core/phoneme_variants.py`) -/

/-- `PhonemeVariants.VOWEL_PATTERNS`. -/
def VOWEL_PATTERNS : List (Str × List Str) :=
  [ ("e".toList, wlist ["e", "é", "è", "ə"])
  , ("a".toList, wlist ["a", "á", "à"])
  , ("i".toList, wlist ["i", "í", "ì"])
  , ("o".toList, wlist ["o", "ó", "ò"])
  , ("u".toList, wlist ["u", "ú", "ù"]) ]

/-- `PhonemeVariants.CONSONANT_PATTERNS`. -/
def CONSONANT_PATTERNS : List (Str × List Str) :=
  [ ("c".toList, wlist ["c", "ch", "k"])
  , ("g".toList, wlist ["g", "ng"])
  , ("ng".toList, wlist ["ng", "n"])
  , ("s".toList, wlist ["s", "sh", "z"])
  , ("j".toList, wlist ["j", "dj"])
  , ("y".toList, wlist ["y", "i"]) ]

/-- `PhonemeVariants.WORD_SUBSTITUTIONS`. -/
def WORD_SUBSTITUTIONS : List (Str × List Str) :=
  [ ("next".toList, wlist ["next", "neks", "nekst", "nex", "nek", "naxs", "nek", "necks", "nexx", "nekes", "nexs", "translate", "teks"])
  , ("slide".toList, wlist ["slide", "slaid", "slid", "slyde", "slaid", "lite", "slait", "slyd", "sled", "slets", "slet", "slets"])
  , ("back".toList, wlist ["back", "bak", "bek", "bæk", "bak", "beck", "bakk", "bake", "bax", "bakc", "bag", "beg"])
  , ("previous".toList, wlist ["previous", "previeus", "privieus", "previous", "reviews", "previus", "preveus", "previws", "prevews", "privius", "priviws"])
  , ("open".toList, wlist ["open", "opèn", "opén", "opin", "open", "opeen", "openn", "opem", "opun", "aupèn", "aupén", "aupin", "aupen", "openn", "opem", "opun", "aupèn", "aupén", "aupin", "aupen", "aupenn", "aupem", "aupun"])
  , ("close".toList, wlist ["close", "klos", "klous", "kloz", "cloze", "clous", "cloz", "kloze", "kloas", "kloes", "kloaz"])
  , ("help".toList, wlist ["help", "hèlp", "hélp", "help", "hep"])
  , ("stop".toList, wlist ["stop", "estop", "istop", "stap", "stòp", "stóp", "stopp", "stope", "stoup", "stob", "stob", "stopp", "stope", "stoup", "stob", "stob", "stopp", "stope", "stoup", "stob", "stob", "stopp", "stope", "stoup", "stob", "stob", "setop"])
  , ("show".toList, wlist ["show", "sho", "sow", "syow", "shou", "shoo", "shouw", "shoa", "shoe", "shouh", "showw"])
  , ("menu".toList, wlist ["menu", "mènu", "ménu", "meenu", "minu", "manu", "minu", "menuu", "menou", "menue", "manou", "manue", "minou", "minue", "manou", "manue"]) ]

/-- One step of `_generate_word_variants`: apply one substitution table
row if its source grapheme occurs in the original word, inserting each
replacement result if not already present. -/
def wordVariantStep (word : Str) (variants : List Str) (pr : Str × List Str) : List Str :=
  if containsSub word pr.1 then
    pr.2.foldl (fun vs alt => insertIfAbsent vs (pyReplace pr.1 alt word)) variants
  else variants

/-- `PhonemeVariants._generate_word_variants`. -/
def generate_word_variants (word : Str) : List Str :=
  let v1 := VOWEL_PATTERNS.foldl (wordVariantStep word) [word]
  let v2 := CONSONANT_PATTERNS.foldl (wordVariantStep word) v1
  pyDedup v2

/-- Variant list for a single token of a phrase: the enumerated word
substitutions when the token is in the table, otherwise the derived
phonetic variants. -/
def variantsForWord (w : Str) : List Str :=
  match WORD_SUBSTITUTIONS.lookup w with
  | some l => l
  | none => generate_word_variants w

/-- `PhonemeVariants.generate_variants`.  Returns `none` when the phrase
has no whitespace-delimited token: in that case the Python code evaluates
`word_variants[0]` on an empty list and raises `IndexError`. -/
def generate_variants (phrase : Str) : Option (List Str) :=
  let words := pySplit (pyLower phrase)
  let word_variants := words.map variantsForWord
  match word_variants with
  | [wv] => some (wv.foldl insertIfAbsent [phrase])
  | [wv1, wv2] => some (wv1.foldl (fun acc v1 =>
      wv2.foldl (fun acc2 v2 => insertIfAbsent acc2 (v1 ++ ' ' :: v2)) acc) [phrase])
  | wv1 :: wv2 :: _ :: _ =>
      let rest := spaceJoin (words.drop 2)
      some (wv1.foldl (fun acc v1 =>
        wv2.foldl (fun acc2 v2 => insertIfAbsent acc2 (v1 ++ ' ' :: (v2 ++ ' ' :: rest))) acc) [phrase])
  | [] => none

/-- The Javanese transforms of `add_regional_variants`: for each variant,
optionally drop a trailing consonant, and always map `ng` to `n`. -/
def javaneseOf (v : Str) : List Str :=
  (match v.getLast? with
   | some c => if ("tpskcng".toList).contains c then [v.dropLast] else []
   | none => []) ++ [pyReplace ("ng".toList) ("n".toList) v]

/-- The Sundanese transforms: vowel shifts e→i and o→u. -/
def sundaneseOf (v : Str) : List Str :=
  [pyReplace ("e".toList) ("i".toList) v, pyReplace ("o".toList) ("u".toList) v]

/-- The Betawi transform: drop tokens of length at most 2. -/
def betawiOf (v : Str) : Str :=
  spaceJoin ((pySplit v).filter (fun w => w.length > 2))

/-- `PhonemeVariants.add_regional_variants` (propagates the
`generate_variants` failure on token-free phrases). -/
def add_regional_variants (phrase : Str) (region : Str) : Option (List Str) :=
  (generate_variants phrase).map (fun base =>
    let v1 := base ++ (if region = "javanese".toList ∨ region = "mixed".toList then
      base.flatMap javaneseOf else [])
    let v2 := v1 ++ (if region = "sundanese".toList ∨ region = "mixed".toList then
      v1.flatMap sundaneseOf else [])
    let v3 := v2 ++ (if region = "betawi".toList ∨ region = "mixed".toList then
      v2.map betawiOf else [])
    pyDedup v3)

/-! ## InputValidator (`src/utils/validators.py`) -/

/-- The characters matched by the shell-injection character class
`[;&|\x60$()\x7b\x7d]` in `DANGEROUS_PATTERNS`. -/
def dangerousChars : Str := ";&|$()".toList ++ [Char.ofNat 96, Char.ofNat 123, Char.ofNat 125]

/-- The path-traversal pattern `\.\.[\\/]`: two dots followed by a slash
or backslash, searched at every position. -/
def hasTraversal : Str → Bool
  | [] => false
  | c :: t =>
    (decide (c = '.') && (match t with
      | d :: e :: _ => decide (d = '.') && (decide (e = '/') || decide (e = '\\'))
      | _ => false)) || hasTraversal t

/-- `InputValidator.is_dangerous`. -/
def is_dangerous (text : Str) : Bool :=
  text.any (fun c => dangerousChars.contains c) ||
  hasTraversal text ||
  text.any (fun c => c = '<' || c = '>') ||
  containsSub text ("--".toList)

/-- The keyword list of `check_injection_attempt`. -/
def dangerous_keywords : List Str :=
  wlist ["exec", "eval", "system", "import", "subprocess", "os.system", "shell", "cmd", "powershell", "bash"]

/-- `InputValidator.check_injection_attempt`. -/
def check_injection_attempt (text : Str) : Bool :=
  dangerous_keywords.any (fun k => containsSub (pyLower text) k)

/-- The accented letters appearing in the phonetic tables; they are in
the Unicode `\w` class used by `sanitize_voice_input`. -/
def extraLetters : Str := "àáâèéêəìíîòóôùúûæ".toList

/-- Model of the regex class `\w` restricted to the program's character
repertoire. -/
def isWordChar (c : Char) : Bool := c.isAlphanum || c = '_' || extraLetters.contains c

/-- Characters kept by `re.sub(r"[^\w\s\-\.\,\!\?]", "", text)`. -/
def keepChar (c : Char) : Bool :=
  isWordChar c || c.isWhitespace || ("-.,!?".toList).contains c

/-- `InputValidator.sanitize_voice_input`. -/
def sanitize_voice_input (text : Str) : Str :=
  if text = [] then []
  else
    let t1 := pyStrip (pyLower text)
    let t2 := spaceJoin (pySplit t1)
    t2.filter keepChar

/-- `InputValidator.SAFE_COMMANDS`. -/
def SAFE_COMMANDS : List Str :=
  wlist ["next", "previous", "stop", "help", "test", "open_slideshow", "close_slideshow", "noise", "popup_on", "popup_off", "caption_on", "caption_off", "change_language", "show_analytics", "unknown"]

/-- `InputValidator.validate_command`. -/
def validate_command (command : Str) : Bool := SAFE_COMMANDS.contains command

/-- `InputValidator.validate_and_sanitize`; `none` models a rejection
(the accompanying error message is not modelled). -/
def validate_and_sanitize (text : Str) : Option Str :=
  if text = [] then none
  else if check_injection_attempt text then none
  else if is_dangerous text then none
  else
    let s := sanitize_voice_input text
    if s = [] ∨ s.length < 2 then none
    else if s.length > 200 then none
    else some s

/-! ## AdaptiveMatcher (`src/utils/matcher.py`) -/

/-- One entry of `AdaptiveMatcher.user_pronunciations`. -/
structure PronRecord where
  attempts : ℕ
  best_score : ℚ
  last_attempt : ℚ
deriving DecidableEq

/-- The state of an `AdaptiveMatcher`. -/
structure MatcherState where
  base_threshold : ℚ
  current_threshold : ℚ
  recent_failures : List ℚ
  recent_successes : List ℚ
  command_frequency : List (Str × ℕ)
  user_pronunciations : List (Str × PronRecord)
deriving DecidableEq

/-- `AdaptiveMatcher.__init__`. -/
def initMatcher (base : ℚ) : MatcherState :=
  ⟨base, base, [], [], [], []⟩

/-- Append to a `deque(maxlen=10)`: push right, evicting from the left
beyond 10 entries. -/
def push_window (l : List ℚ) (x : ℚ) : List ℚ :=
  let m := l ++ [x]
  m.drop (m.length - 10)

/-- Increment a command's frequency counter (insertion-ordered dict). -/
def bumpFreq : List (Str × ℕ) → Str → List (Str × ℕ)
  | [], k => [(k, 1)]
  | (a, n) :: rest, k =>
    if a = k then (a, n + 1) :: rest else (a, n) :: bumpFreq rest k

/-- `AdaptiveMatcher.record_success`. -/
def record_success (m : MatcherState) (command : Str) (score : ℚ) : MatcherState :=
  { m with recent_successes := push_window m.recent_successes score,
           command_frequency := bumpFreq m.command_frequency command }

/-- Update one pronunciation record: create `(attempts 0, best_score s,
last_attempt t)` if absent, then increment the attempt count and take the
maximum best score. -/
def updatePron : List (Str × PronRecord) → Str → ℚ → ℚ → List (Str × PronRecord)
  | [], k, sc, t => [(k, ⟨1, sc, t⟩)]
  | (a, r) :: rest, k, sc, t =>
    if a = k then (a, ⟨r.attempts + 1, max r.best_score sc, r.last_attempt⟩) :: rest
    else (a, r) :: updatePron rest k sc t

/-- `AdaptiveMatcher.record_failure` (`t` models `time.time()`). -/
def record_failure (t : ℚ) (m : MatcherState) (text : Str) (best_score : ℚ) : MatcherState :=
  { m with recent_failures := push_window m.recent_failures best_score,
           user_pronunciations :=
             updatePron m.user_pronunciations (pyStrip (pyLower text)) best_score t }

/-- `AdaptiveMatcher.adjust_threshold`.  Returns `none` when
`failure_rate > 0.5` while `base_threshold ≠ 6`: on that path the local
variable `reason` is never assigned and the Python `return` raises
`UnboundLocalError`. -/
def adjust_threshold (m : MatcherState) : Option (ℚ × MatcherState) :=
  let failure_rate : ℚ :=
    if m.recent_failures = [] then 0 else (m.recent_failures.length : ℚ) / 10
  if failure_rate > 1/2 ∧ m.base_threshold ≠ 6 then none
  else
    let adjustment : ℚ := if failure_rate > 1/2 then -(1/2) else 0
    let recent_avg_score : ℚ :=
      if m.recent_successes = [] then 10
      else m.recent_successes.sum / m.recent_successes.length
    let adjustment2 := if recent_avg_score > 12 then adjustment + 1/2 else adjustment
    let th := max 3 (min 8 (m.base_threshold + adjustment2))
    some (th, { m with current_threshold := th })

/-- `AdaptiveMatcher.get_adaptive_threshold` (with a non-`None`
command argument, as the detector's decision would use it). -/
def get_adaptive_threshold (m : MatcherState) (command : Str) : Option (ℚ × MatcherState) :=
  (adjust_threshold m).map (fun p =>
    let freqOpt := if command = [] then none else p.2.command_frequency.lookup command
    match freqOpt with
    | some f => if f > 10 then (max 3 (p.1 - 1/2), p.2) else p
    | none => p)

/-! ## SmartVoiceDetector (`src/core/voice_detector.py`) -/

/-- A scored match candidate (one entry of the `results` list). -/
structure Candidate where
  command : Str
  phrase : Str
  score : ℚ
  maxScore : ℚ
  description : Str
deriving DecidableEq, Inhabited

/-- One record written to the unrecognized-command sink
(`_save_unrecognized_command`; the wall-clock timestamp strings are not
modelled). -/
structure SinkEntry where
  userInput : Str
  closestMatch : Str
  confidence : ℚ
  suggestions : List Str
deriving DecidableEq

/-- One command of the `wake_words` catalog. -/
structure CommandEntry where
  id : Str
  phrases : List Str
  weight : ℚ
  description : Str

/-- Insert every listed variant of length at least 2 into the
accumulated phrase set. -/
def addFiltered (acc : List Str) (l : List Str) : List Str :=
  l.foldl (fun a v => if 2 ≤ v.length then insertIfAbsent a v else a) acc

/-- Recursion of `_expand_with_variants` over the seeded phrase list. -/
def expandAux (acc : List Str) : List Str → Option (List Str)
  | [] => some acc
  | p :: ps => do
      let vs ← generate_variants p
      let rs ← add_regional_variants p ("mixed".toList)
      expandAux (addFiltered (addFiltered (insertIfAbsent acc p) vs) rs) ps

/-- `SmartVoiceDetector._expand_with_variants`. -/
def expand_with_variants (phrases : List Str) : Option (List Str) :=
  expandAux [] phrases

/-- Seeded phrases of the `next` command. -/
def next_seeds : List Str := wlist ["next slide", "slide next", "lanjut slide", "slide lanjut"]

/-- Seeded phrases of the `previous` command. -/
def previous_seeds : List Str :=
  wlist ["back slide", "slide back", "mundur slide", "slide mundur", "previous slide", "slide previous"]

/-- Seeded phrases of the `open_slideshow` command. -/
def open_slideshow_phrases : List Str :=
  wlist ["open slide show", "slide show open", "start slide show", "slide show start", "mulai slide show", "slide show mulai", "buka slide show", "slide show buka", "f5", "mulai presentasi", "presentasi mulai", "buka presentasi", "presentasi buka", "start presentation", "presentation start", "open slide", "open side show", "open slideshows"]

/-- Seeded phrases of the `close_slideshow` command. -/
def close_slideshow_phrases : List Str :=
  wlist ["close slide show", "slide show close", "quit slide show", "slide show quit", "keluar slide show", "slide show keluar", "tutup slide show", "slide show tutup", "stop slide show", "slide show stop", "akhiri presentasi", "presentasi akhiri", "tutup presentasi", "presentasi tutup", "end presentation", "presentation end", "exit slideshow", "slideshow exit", "close slide", "close side show", "close slideshows"]

/-- Seeded phrases of the `help` command. -/
def help_phrases : List Str :=
  wlist ["help menu", "menu help", "bantuan menu", "menu bantuan", "helm menu", "hal menu", "helmmu", "menu bantu", "menu bantuanmu", "menu bantuin", "held menu", "hell menu", "help me menu"]

/-- Seeded phrases of the `stop` command. -/
def stop_phrases : List Str :=
  wlist ["stop program", "program stop", "berhenti program", "program berhenti", "stop", "berhenti", "stok program", "setiap program", "top program", "stop programnya", "stop progran"]

/-- Seeded phrases of the `test` command. -/
def test_phrases : List Str :=
  wlist ["test mic", "mic test", "test microphone", "microphone test", "test audio", "audio test"]

/-- Seeded phrases of the `noise` command. -/
def noise_phrases : List Str :=
  wlist ["toggle noise", "noise toggle", "noise reduction", "reduction noise", "noise on", "noise off"]

/-- Seeded phrases of the `popup_on` command. -/
def popup_on_phrases : List Str :=
  wlist ["popup on", "show popup", "popup show", "enable popup", "popup enable", "turn on popup", "popup turn on"]

/-- Seeded phrases of the `popup_off` command. -/
def popup_off_phrases : List Str :=
  wlist ["popup off", "hide popup", "popup hide", "disable popup", "popup disable", "turn off popup", "popup turn off"]

/-- Seeded phrases of the `caption_on` command. -/
def caption_on_phrases : List Str :=
  wlist ["caption on", "start caption", "caption start", "enable caption", "caption enable", "turn on caption", "caption turn on", "live caption on", "caption live on"]

/-- Seeded phrases of the `caption_off` command. -/
def caption_off_phrases : List Str :=
  wlist ["caption off", "stop caption", "caption stop", "disable caption", "caption disable", "turn off caption", "caption turn off", "live caption off", "caption live off"]

/-- Seeded phrases of the `change_language` command. -/
def change_language_phrases : List Str :=
  wlist ["change language", "language change", "switch language", "language switch", "ganti bahasa", "bahasa ganti"]

/-- Seeded phrases of the `show_analytics` command. -/
def show_analytics_phrases : List Str :=
  wlist ["show analytics", "analytics show", "display analytics", "analytics display", "session stats", "stats session"]

/-- The `wake_words` catalog built in `SmartVoiceDetector.__init__`.
Only `next` and `previous` pass their seeds through
`_expand_with_variants`; every other command uses its seeded list
verbatim.  (`getD []` totalizes the `Option`; the expansion of the
concrete seeds never fails, see `expand_next_isSome` below.) -/
def wake_words : List CommandEntry :=
  [ ⟨"next".toList, (expand_with_variants next_seeds).getD [], 10, "Slide maju".toList⟩
  , ⟨"previous".toList, (expand_with_variants previous_seeds).getD [], 10, "Slide mundur".toList⟩
  , ⟨"open_slideshow".toList, open_slideshow_phrases, 18, "Buka slideshow (F5)".toList⟩
  , ⟨"close_slideshow".toList, close_slideshow_phrases, 18, "Tutup slideshow (ESC)".toList⟩
  , ⟨"help".toList, help_phrases, 8, "Tampilkan bantuan".toList⟩
  , ⟨"stop".toList, stop_phrases, 15, "Stop program".toList⟩
  , ⟨"test".toList, test_phrases, 8, "Test microphone".toList⟩
  , ⟨"noise".toList, noise_phrases, 8, "Toggle noise reduction".toList⟩
  , ⟨"popup_on".toList, popup_on_phrases, 8, "Tampilkan popup bantu".toList⟩
  , ⟨"popup_off".toList, popup_off_phrases, 8, "Sembunyikan popup bantu".toList⟩
  , ⟨"caption_on".toList, caption_on_phrases, 8, "Tampilkan teks caption dan mulai live captioning real-time".toList⟩
  , ⟨"caption_off".toList, caption_off_phrases, 12, "Teks caption berhenti dan sembunyikan live captioning real-time".toList⟩
  , ⟨"change_language".toList, change_language_phrases, 7, "Change caption language".toList⟩
  , ⟨"show_analytics".toList, show_analytics_phrases, 7, "Show session analytics".toList⟩ ]

/-- The scoring of one `(command, phrase)` pair against the sanitized
utterance (`detect`'s inner loop).  `fa` models `fuzzy_available` and
`fr` the `fuzz.ratio` whole-string similarity backend. -/
def score_phrase (fa : Bool) (fr : Str → Str → ℕ) (weight : ℚ) (phrase text : Str) : ℚ :=
  let base : ℚ :=
    if phrase = text then weight + 20
    else if containsSub text phrase then weight + 10
    else
      let phrase_words := pySplit phrase
      let text_words := pySplit text
      let matching_words := phrase_words.filter (fun w => decide (w ∈ text_words))
      if 2 ≤ matching_words.length then weight + 3 * matching_words.length
      else if matching_words.length = 1 ∧ phrase_words.length ≤ 2 then weight + 1
      else 0
  if base = 0 ∧ fa then
    let similarity := fr text phrase
    if 85 ≤ similarity then weight + (similarity : ℚ) / 20 else 0
  else base

/-- The catalog scan: collect every positive-score candidate in catalog
order. -/
def scan_results (fa : Bool) (fr : Str → Str → ℕ) (text : Str) : List Candidate :=
  wake_words.flatMap (fun e => e.phrases.filterMap (fun p =>
    let sc := score_phrase fa fr e.weight p text
    if 0 < sc then some ⟨e.id, p, sc, e.weight + 20, e.description⟩ else none))

/-- The token-overlap ratio of `sort_key`:
`|set(phrase_tokens) ∩ set(text_tokens)| / max(|set(phrase_tokens)|, 1)`. -/
def match_quality (text phrase : Str) : ℚ :=
  let phrase_words := pyDedup (pySplit phrase)
  let text_words := pySplit text
  let matching := (phrase_words.filter (fun w => decide (w ∈ text_words))).length
  (matching : ℚ) / (max phrase_words.length 1 : ℚ)

/-- The sort key of `detect`: score descending, then match quality
descending, then phrase token count descending (Python sorts the negated
triple ascending). -/
def sort_key (text : Str) (r : Candidate) : ℚ × ℚ × ℚ :=
  (-r.score, -match_quality text r.phrase, -((pySplit r.phrase).length : ℚ))

/-- Lexicographic comparison of sort keys. -/
def key_le (a b : ℚ × ℚ × ℚ) : Bool :=
  decide (a.1 < b.1 ∨ (a.1 = b.1 ∧ (a.2.1 < b.2.1 ∨ (a.2.1 = b.2.1 ∧ a.2.2 ≤ b.2.2))))

/-- `results.sort(key=sort_key)`: a stable sort by the key triple. -/
def rank_results (text : Str) (rs : List Candidate) : List Candidate :=
  rs.mergeSort (fun a b => key_le (sort_key text a) (sort_key text b))

/-- The result of one `detect` call.  Python returns `None` on
validation failure, active cooldown, too-short input and command
whitelist failure (`noResult`), a result dict on a match, and an
`unknown` dict otherwise. -/
inductive DetectResult where
  | noResult
  | matched (best : Candidate)
  | unknownNoMatch (userInput : Str)
  | unknownLow (score : ℚ) (suggestion : Str) (userInput : Str)
deriving DecidableEq

/-- The detector-owned mutable state: the adaptive matcher, the cooldown
timestamp and the unrecognized-command sink. -/
structure DetectorState where
  matcher : MatcherState
  last_execution_time : ℚ
  sink : List SinkEntry
deriving DecidableEq

/-- Detector state after `SmartVoiceDetector.__init__`
(`AdaptiveMatcher(base_threshold=6.0)`, `last_execution_time = 0`). -/
def initDetector : DetectorState := ⟨initMatcher 6, 0, []⟩

/-- `SmartVoiceDetector.detect`.  `now` models `time.time()`; the
cooldown interval is the fixed `cooldown_seconds = 2`. -/
def detect (fa : Bool) (fr : Str → Str → ℕ) (now : ℚ) (st : DetectorState) (text : Str) :
    DetectResult × DetectorState :=
  match validate_and_sanitize text with
  | none => (.noResult, st)
  | some sanitized =>
    if now - st.last_execution_time < 2 then (.noResult, st)
    else if sanitized = [] ∨ (pyStrip sanitized).length < 2 then (.noResult, st)
    else
      let text_lower := pyStrip (pyLower sanitized)
      let results := rank_results text_lower (scan_results fa fr text_lower)
      match results with
      | [] =>
        (.unknownNoMatch text_lower,
         { st with sink := st.sink ++ [⟨text_lower, "none".toList, 0, []⟩] })
      | best :: _ =>
        if 8 ≤ best.score then
          if validate_command best.command then
            (.matched best,
             { st with last_execution_time := now,
                       matcher := record_success st.matcher best.command best.score })
          else (.noResult, st)
        else
          (.unknownLow best.score best.description text_lower,
           { st with matcher := record_failure now st.matcher sanitized best.score,
                     sink := st.sink ++ [⟨text_lower, best.command, best.score, [best.description]⟩] })

/-! ## Basic membership lemmas for the set model -/

theorem mem_insertIfAbsent {l : List Str} {x y : Str} :
    y ∈ insertIfAbsent l x ↔ y ∈ l ∨ y = x := by
  unfold insertIfAbsent
  by_cases h : x ∈ l
  · simp only [if_pos h]
    constructor
    · exact Or.inl
    · rintro (hy | rfl)
      · exact hy
      · exact h
  · simp [if_neg h]

theorem self_mem_insertIfAbsent (l : List Str) (x : Str) : x ∈ insertIfAbsent l x :=
  mem_insertIfAbsent.mpr (Or.inr rfl)

theorem mem_insertIfAbsent_of_mem {l : List Str} {y : Str} (x : Str) (h : y ∈ l) :
    y ∈ insertIfAbsent l x :=
  mem_insertIfAbsent.mpr (Or.inl h)

/-- Membership in a fold that only ever inserts. -/
theorem mem_foldl_insertIfAbsent (l : List Str) :
    ∀ (acc : List Str) (y : Str), y ∈ l.foldl insertIfAbsent acc ↔ y ∈ acc ∨ y ∈ l := by
  induction l with
  | nil => simp
  | cons a t ih =>
    intro acc y
    simp only [List.foldl_cons, ih, mem_insertIfAbsent, List.mem_cons]
    tauto

theorem mem_pyDedup {xs : List Str} {y : Str} : y ∈ pyDedup xs ↔ y ∈ xs := by
  simp [pyDedup, mem_foldl_insertIfAbsent]

/-- A fold whose step preserves membership preserves initial members. -/
theorem mem_foldl_of_step {β : Type} (f : List Str → β → List Str)
    (hf : ∀ acc b y, y ∈ acc → y ∈ f acc b) (l : List β) :
    ∀ (acc : List Str) (y : Str), y ∈ acc → y ∈ l.foldl f acc := by
  induction l with
  | nil => intro acc y h; exact h
  | cons a t ih => intro acc y h; exact ih (f acc a) y (hf acc a y h)

/-! ## Variant generation: structural facts -/

/-- `generate_variants` succeeds exactly on phrases with at least one
whitespace-delimited token. -/
theorem generate_variants_isSome_iff (phrase : Str) :
    (generate_variants phrase).isSome ↔ pySplit (pyLower phrase) ≠ [] := by
  unfold generate_variants
  cases h : pySplit (pyLower phrase) with
  | nil => simp [h]
  | cons w ws =>
    cases ws with
    | nil => simp [h]
    | cons w2 ws2 => cases ws2 <;> simp [h]

/-- Every successful `generate_variants` result contains the original
phrase. -/
theorem self_mem_generate_variants {phrase : Str} {vs : List Str}
    (h : generate_variants phrase = some vs) : phrase ∈ vs := by
  unfold generate_variants at h
  cases hw : pySplit (pyLower phrase) with
  | nil => rw [hw] at h; simp at h
  | cons w ws =>
    cases ws with
    | nil =>
      rw [hw] at h
      simp only [List.map] at h
      injection h with h'
      subst h'
      exact mem_foldl_insertIfAbsent _ _ _ |>.mpr (Or.inl (List.mem_singleton.mpr rfl))
    | cons w2 ws2 =>
      cases ws2 with
      | nil =>
        rw [hw] at h
        simp only [List.map] at h
        injection h with h'
        subst h'
        refine mem_foldl_of_step _ ?_ _ _ _ ?_
        · intro acc b y hy
          exact mem_foldl_of_step _ (fun acc2 b2 y2 hy2 => mem_insertIfAbsent_of_mem _ hy2) _ acc y hy
        · exact List.mem_singleton.mpr rfl
      | cons w3 ws3 =>
        rw [hw] at h
        simp only [List.map] at h
        injection h with h'
        subst h'
        refine mem_foldl_of_step _ ?_ _ _ _ ?_
        · intro acc b y hy
          exact mem_foldl_of_step _ (fun acc2 b2 y2 hy2 => mem_insertIfAbsent_of_mem _ hy2) _ acc y hy
        · exact List.mem_singleton.mpr rfl

/-- Regional variants are a superset of the base variants. -/
theorem generate_subset_regional {phrase region : Str} {vs rs : List Str}
    (hg : generate_variants phrase = some vs)
    (hr : add_regional_variants phrase region = some rs) :
    ∀ x ∈ vs, x ∈ rs := by
  intro x hx
  unfold add_regional_variants at hr
  rw [hg] at hr
  simp only [Option.map_some'] at hr
  injection hr with hr'
  subst hr'
  exact mem_pyDedup.mpr (by
    apply List.mem_append_left
    apply List.mem_append_left
    exact List.mem_append_left _ hx)

/-- `add_regional_variants` succeeds whenever `generate_variants` does. -/
theorem add_regional_isSome {phrase region : Str} {vs : List Str}
    (hg : generate_variants phrase = some vs) :
    ∃ rs, add_regional_variants phrase region = some rs := by
  unfold add_regional_variants
  rw [hg]
  exact ⟨_, rfl⟩

/-! ## Claim C9 -/

/-- C9 counterexample: for the empty phrase (no tokens), Python's
`generate_variants` raises `IndexError` instead of returning a set
containing the original phrase, and `add_regional_variants` propagates
the same failure; so the universally quantified claim fails at
`phrase = ""`. -/
theorem c9_counterexample :
    generate_variants ("".toList) = none ∧
      add_regional_variants ("".toList) ("mixed".toList) = none := by
  exact ⟨rfl, rfl⟩

/-- C9 (amended): for every phrase with at least one whitespace-delimited
token and every region tag, `generate_variants` succeeds and contains the
original phrase, and `add_regional_variants` succeeds and is a superset
of the generated variants. -/
theorem c9_amended (phrase region : Str) (h : pySplit (pyLower phrase) ≠ []) :
    ∃ vs rs, generate_variants phrase = some vs ∧
      add_regional_variants phrase region = some rs ∧
      phrase ∈ vs ∧ ∀ x ∈ vs, x ∈ rs := by
  have hs : (generate_variants phrase).isSome := (generate_variants_isSome_iff phrase).mpr h
  obtain ⟨vs, hvs⟩ := Option.isSome_iff_exists.mp hs
  obtain ⟨rs, hrs⟩ := @add_regional_isSome _ region _ hvs
  exact ⟨vs, rs, hvs, hrs, self_mem_generate_variants hvs, generate_subset_regional hvs hrs⟩

/-- C9 witness: the amended statement applied to the concrete phrase
`"next slide"` with region `"mixed"`. -/
theorem c9_amended_witness :
    ∃ vs rs, generate_variants ("next slide".toList) = some vs ∧
      add_regional_variants ("next slide".toList) ("mixed".toList) = some rs ∧
      ("next slide".toList) ∈ vs ∧ ∀ x ∈ vs, x ∈ rs :=
  c9_amended ("next slide".toList) ("mixed".toList) (by decide)

/-! ## Claim C2 -/

theorem mem_addFiltered {l : List Str} :
    ∀ {acc : List Str} {y : Str}, y ∈ addFiltered acc l ↔ y ∈ acc ∨ (y ∈ l ∧ 2 ≤ y.length) := by
  induction l with
  | nil => simp [addFiltered]
  | cons a t ih =>
    intro acc y
    unfold addFiltered at ih ⊢
    simp only [List.foldl_cons]
    by_cases h2 : 2 ≤ a.length
    · rw [if_pos h2, ih, mem_insertIfAbsent]
      constructor
      · rintro ((hy | rfl) | ⟨hy, hl⟩)
        · exact Or.inl hy
        · exact Or.inr ⟨List.mem_cons_self _ _, h2⟩
        · exact Or.inr ⟨List.mem_cons_of_mem _ hy, hl⟩
      · rintro (hy | ⟨hy, hl⟩)
        · exact Or.inl (Or.inl hy)
        · rcases List.mem_cons.mp hy with rfl | hy'
          · exact Or.inl (Or.inr rfl)
          · exact Or.inr ⟨hy', hl⟩
    · rw [if_neg h2, ih]
      constructor
      · rintro (hy | ⟨hy, hl⟩)
        · exact Or.inl hy
        · exact Or.inr ⟨List.mem_cons_of_mem _ hy, hl⟩
      · rintro (hy | ⟨hy, hl⟩)
        · exact Or.inl hy
        · rcases List.mem_cons.mp hy with rfl | hy'
          · exact absurd hl h2
          · exact Or.inr ⟨hy', hl⟩

/-- Membership characterization of one seeded phrase's contribution in
`_expand_with_variants`. -/
def expandContribution (p x : Str) : Prop :=
  x = p ∨ (2 ≤ x.length ∧
    ((∃ vs, generate_variants p = some vs ∧ x ∈ vs) ∨
     (∃ rs, add_regional_variants p ("mixed".toList) = some rs ∧ x ∈ rs)))

theorem mem_expandAux :
    ∀ (ps : List Str) (acc res : List Str), expandAux acc ps = some res →
      ∀ x, x ∈ res ↔ x ∈ acc ∨ ∃ p ∈ ps, expandContribution p x := by
  intro ps
  induction ps with
  | nil =>
    intro acc res h x
    simp only [expandAux] at h
    injection h with h'
    subst h'
    simp
  | cons p ps ih =>
    intro acc res h x
    simp only [expandAux, bind, Option.bind] at h
    cases hg : generate_variants p with
    | none => rw [hg] at h; simp at h
    | some vs =>
      rw [hg] at h
      cases hr : add_regional_variants p ("mixed".toList) with
      | none => rw [hr] at h; simp at h
      | some rs =>
        rw [hr] at h
        have := ih _ _ h x
        rw [this, mem_addFiltered, mem_addFiltered, mem_insertIfAbsent]
        constructor
        · rintro ((((hy | hxp) | ⟨hy, hl⟩) | ⟨hy, hl⟩) | ⟨q, hq, hcon⟩)
          · exact Or.inl hy
          · exact Or.inr ⟨p, List.mem_cons_self _ _, Or.inl hxp⟩
          · exact Or.inr ⟨p, List.mem_cons_self _ _, Or.inr ⟨hl, Or.inl ⟨vs, hg, hy⟩⟩⟩
          · exact Or.inr ⟨p, List.mem_cons_self _ _, Or.inr ⟨hl, Or.inr ⟨rs, hr, hy⟩⟩⟩
          · exact Or.inr ⟨q, List.mem_cons_of_mem _ hq, hcon⟩
        · rintro (hy | ⟨q, hq, hcon⟩)
          · exact Or.inl (Or.inl (Or.inl (Or.inl hy)))
          · rcases List.mem_cons.mp hq with rfl | hq'
            · rcases hcon with rfl | ⟨hl, ⟨vs', hg', hy⟩ | ⟨rs', hr', hy⟩⟩
              · exact Or.inl (Or.inl (Or.inl (Or.inr rfl)))
              · rw [hg] at hg'; injection hg' with e; subst e
                exact Or.inl (Or.inl (Or.inr ⟨hy, hl⟩))
              · rw [hr] at hr'; injection hr' with e; subst e
                exact Or.inl (Or.inr ⟨hy, hl⟩)
            · exact Or.inr ⟨q, hq', hcon⟩

/-- `_expand_with_variants` never fails on seed lists whose phrases all
have at least one token. -/
theorem expandAux_isSome :
    ∀ (ps : List Str) (acc : List Str),
      (∀ p ∈ ps, pySplit (pyLower p) ≠ []) → ∃ res, expandAux acc ps = some res := by
  intro ps
  induction ps with
  | nil => intro acc _; exact ⟨acc, rfl⟩
  | cons p ps ih =>
    intro acc hall
    have hp := hall p (List.mem_cons_self _ _)
    obtain ⟨vs, hvs⟩ := Option.isSome_iff_exists.mp ((generate_variants_isSome_iff p).mpr hp)
    obtain ⟨rs, hrs⟩ := @add_regional_isSome _ ("mixed".toList) _ hvs
    obtain ⟨res, hres⟩ := ih _ (fun q hq => hall q (List.mem_cons_of_mem _ hq))
    refine ⟨res, ?_⟩
    simp only [expandAux, bind, Option.bind, hvs, hrs]
    exact hres

/-- The phrase set the spec's formula predicts for a command seeded with
`seeds`: the seeds united with all generated and regional variants of
length at least 2. -/
def claimedExpansionMem (seeds : List Str) (x : Str) : Prop :=
  x ∈ seeds ∨ ∃ p ∈ seeds, 2 ≤ x.length ∧
    ((∃ vs, generate_variants p = some vs ∧ x ∈ vs) ∨
     (∃ rs, add_regional_variants p ("mixed".toList) = some rs ∧ x ∈ rs))

/-- The expansion of the `next` seeds succeeds. -/
theorem expand_next_isSome : (expand_with_variants next_seeds).isSome := by
  have h : ∀ p ∈ next_seeds, pySplit (pyLower p) ≠ [] := by decide
  obtain ⟨res, hres⟩ := expandAux_isSome next_seeds [] h
  rw [expand_with_variants, hres]
  rfl

/-- The expansion of the `previous` seeds succeeds. -/
theorem expand_previous_isSome : (expand_with_variants previous_seeds).isSome := by
  have h : ∀ p ∈ previous_seeds, pySplit (pyLower p) ≠ [] := by decide
  obtain ⟨res, hres⟩ := expandAux_isSome previous_seeds [] h
  rw [expand_with_variants, hres]
  rfl

/-- A successful expansion is characterized by the spec's union formula. -/
theorem mem_expand_with_variants {seeds res : List Str}
    (h : expand_with_variants seeds = some res) :
    ∀ x, x ∈ res ↔ claimedExpansionMem seeds x := by
  intro x
  rw [mem_expandAux seeds [] res h x]
  simp only [List.not_mem_nil, false_or]
  unfold claimedExpansionMem expandContribution
  constructor
  · rintro ⟨p, hp, rfl | ⟨hl, hv⟩⟩
    · exact Or.inl hp
    · exact Or.inr ⟨p, hp, hl, hv⟩
  · rintro (hx | ⟨p, hp, hl, hv⟩)
    · exact ⟨x, hx, Or.inl rfl⟩
    · exact ⟨p, hp, Or.inr ⟨hl, hv⟩⟩

/-! ## Claim C2 -/

/-- C2 counterexample: the generated variant `"hep menu"` of the `help`
seed `"help menu"` is at least 2 characters long, yet it is not in the
`help` command's scanned phrase set, because `__init__` passes only the
`next` and `previous` seeds through `_expand_with_variants`; so the
phrase set of `help` is not the seeded set united with the generated and
regional variants. -/
theorem c2_counterexample :
    (∃ e ∈ wake_words, e.id = "help".toList ∧ e.phrases = help_phrases) ∧
    "help menu".toList ∈ help_phrases ∧
    (generate_variants ("help menu".toList)).isSome ∧
    2 ≤ ("hep menu".toList).length ∧
    ("hep menu".toList) ∈ (generate_variants ("help menu".toList)).getD [] ∧
    ("hep menu".toList) ∉ help_phrases := by
  refine ⟨⟨⟨"help".toList, help_phrases, 8, "Tampilkan bantuan".toList⟩, ?_, rfl, rfl⟩,
    by decide, by decide, by decide, ?_, by decide⟩
  · exact List.mem_cons_of_mem _ (List.mem_cons_of_mem _ (List.mem_cons_of_mem _
      (List.mem_cons_of_mem _ (List.mem_cons_self _ _))))
  · set_option maxRecDepth 4000 in decide

/-- C2 (amended): the phrase sets of the two variant-expanded commands
`next` and `previous` are exactly the seeds united with the generated and
regional variants of length at least 2, while every other catalog entry
scans its seeded phrase list verbatim, with no variant expansion. -/
theorem c2_amended :
    (∀ x, x ∈ (expand_with_variants next_seeds).getD [] ↔
      claimedExpansionMem next_seeds x) ∧
    (∀ x, x ∈ (expand_with_variants previous_seeds).getD [] ↔
      claimedExpansionMem previous_seeds x) ∧
    (wake_words.map CommandEntry.phrases).drop 2 =
      [open_slideshow_phrases, close_slideshow_phrases, help_phrases, stop_phrases,
       test_phrases, noise_phrases, popup_on_phrases, popup_off_phrases,
       caption_on_phrases, caption_off_phrases, change_language_phrases,
       show_analytics_phrases] := by
  refine ⟨?_, ?_, rfl⟩
  · obtain ⟨res, hres⟩ := Option.isSome_iff_exists.mp expand_next_isSome
    rw [hres]
    exact mem_expand_with_variants hres
  · obtain ⟨res, hres⟩ := Option.isSome_iff_exists.mp expand_previous_isSome
    rw [hres]
    exact mem_expand_with_variants hres

/-! ## Claim C10 -/

/-- The key normalization of `record_failure`: `text.lower().strip()`. -/
def normKey (s : Str) : Str := pyStrip (pyLower s)

/-- Attempt count stored for a pronunciation key (0 when absent). -/
def attemptsOf (m : MatcherState) (k : Str) : ℕ :=
  ((m.user_pronunciations.lookup k).map PronRecord.attempts).getD 0

/-- Best score stored for a pronunciation key. -/
def bestOf (m : MatcherState) (k : Str) : Option ℚ :=
  (m.user_pronunciations.lookup k).map PronRecord.best_score

/-- Replay a sequence of `record_failure` calls
(time, raw text, best score). -/
def applyFailures (m : MatcherState) : List (ℚ × Str × ℚ) → MatcherState
  | [] => m
  | e :: rest => applyFailures (record_failure e.1 m e.2.1 e.2.2) rest

/-- The scores of the calls in the sequence whose normalized utterance
equals the given key. -/
def relevantScores (l : List (ℚ × Str × ℚ)) (k : Str) : List ℚ :=
  (l.filter (fun e => decide (normKey e.2.1 = k))).map (fun e => e.2.2)

theorem lookup_updatePron_self (l : List (Str × PronRecord)) (k : Str) (sc t : ℚ) :
    (updatePron l k sc t).lookup k = some
      (match l.lookup k with
       | none => ⟨1, sc, t⟩
       | some r => ⟨r.attempts + 1, max r.best_score sc, r.last_attempt⟩) := by
  induction l with
  | nil => simp [updatePron, List.lookup]
  | cons hd tl ih =>
    obtain ⟨a, r⟩ := hd
    by_cases hak : a = k
    · subst hak
      simp [updatePron, List.lookup]
    · have hbeq : (k == a) = false := by
        simp [beq_iff_eq]
        exact fun h => hak h.symm
      simp only [updatePron, if_neg hak, List.lookup, hbeq]
      exact ih

theorem lookup_updatePron_other (l : List (Str × PronRecord)) (k k' : Str) (sc t : ℚ)
    (h : k' ≠ k) : (updatePron l k sc t).lookup k' = l.lookup k' := by
  induction l with
  | nil =>
    have hbeq : (k' == k) = false := by simp [beq_iff_eq]; exact h
    simp [updatePron, List.lookup, hbeq]
  | cons hd tl ih =>
    obtain ⟨a, r⟩ := hd
    by_cases hak : a = k
    · subst hak
      have hbeq : (k' == a) = false := by simp [beq_iff_eq]; exact h
      simp [updatePron, List.lookup, hbeq]
    · simp only [updatePron, if_neg hak, List.lookup]
      by_cases hk'a : k' = a
      · subst hk'a; simp
      · have hbeq : (k' == a) = false := by simp [beq_iff_eq]; exact hk'a
        simp [hbeq]
        exact ih

/-- Effect of one `record_failure` call on one key's attempt count and
best score. -/
theorem record_failure_pron_step (m : MatcherState) (t : ℚ) (txt : Str) (sc : ℚ) (k : Str) :
    (attemptsOf (record_failure t m txt sc) k =
       attemptsOf m k + (if normKey txt = k then 1 else 0)) ∧
    (bestOf (record_failure t m txt sc) k =
       if normKey txt = k then some (max ((bestOf m k).getD sc) sc) else bestOf m k) := by
  by_cases h : normKey txt = k
  · subst h
    simp only [attemptsOf, bestOf, record_failure, normKey, if_pos rfl]
    rw [lookup_updatePron_self]
    cases hl : m.user_pronunciations.lookup (pyStrip (pyLower txt)) with
    | none => simp [max_self]
    | some r => simp
  · constructor
    · simp only [attemptsOf, record_failure, if_neg h]
      rw [lookup_updatePron_other m.user_pronunciations (pyStrip (pyLower txt)) k sc t
        (fun e => h e.symm)]
      simp
    · simp only [bestOf, record_failure, if_neg h]
      rw [lookup_updatePron_other m.user_pronunciations (pyStrip (pyLower txt)) k sc t
        (fun e => h e.symm)]

/-- C10: along any sequence of `record_failure` calls, a pronunciation
key's attempt count grows by exactly the number of calls normalizing to
that key (hence by exactly 1 per such call), and its stored best score is
the running maximum of the previously stored best score and every score
recorded for that key — so it equals the maximum score recorded so far
and never decreases. -/
theorem c10_pronunciation_invariant (l : List (ℚ × Str × ℚ)) (k : Str) (m : MatcherState) :
    attemptsOf (applyFailures m l) k = attemptsOf m k + (relevantScores l k).length ∧
    bestOf (applyFailures m l) k =
      (relevantScores l k).foldl (fun b sc => some (max (b.getD sc) sc)) (bestOf m k) := by
  induction l generalizing m with
  | nil => simp [applyFailures, relevantScores]
  | cons e rest ih =>
    obtain ⟨t, txt, sc⟩ := e
    have step := record_failure_pron_step m t txt sc k
    have ihm := ih (record_failure t m txt sc)
    by_cases h : normKey txt = k
    · have hrel : relevantScores ((t, txt, sc) :: rest) k = sc :: relevantScores rest k := by
        simp [relevantScores, List.filter, h]
      constructor
      · rw [applyFailures, ihm.1, step.1, if_pos h, hrel]
        simp only [List.length_cons]
        omega
      · rw [applyFailures, ihm.2, step.2, if_pos h, hrel]
        simp only [List.foldl_cons]
    · have hrel : relevantScores ((t, txt, sc) :: rest) k = relevantScores rest k := by
        simp [relevantScores, List.filter, h]
      constructor
      · rw [applyFailures, ihm.1, step.1, if_neg h, hrel]
        omega
      · rw [applyFailures, ihm.2, step.2, if_neg h, hrel]

/-! ## Claim C5 -/

/-- The claim's adjustment formula, written from the spec's words:
`failure_rate = |recent_failures|/10`; `-0.5` when the rate exceeds 0.5;
`+0.5` when the recent success window has an average exceeding 12; clamp
to [3, 8]. -/
def spec_adjusted_threshold (base : ℚ) (failures successes : List ℚ) : ℚ :=
  let failure_rate : ℚ := (failures.length : ℚ) / 10
  let adjustment : ℚ := if failure_rate > 1/2 then -(1/2) else 0
  let adjustment2 : ℚ :=
    if successes ≠ [] ∧ successes.sum / (successes.length : ℚ) > 12 then adjustment + 1/2
    else adjustment
  max 3 (min 8 (base + adjustment2))

/-- C5 counterexample: record four successes of score 20 and then six
failures; 6 of the last 10 recorded outcomes are failures, yet
`adjust_threshold` yields 6, not `clamp(base - 0.5) = 5.5`, because the
success-average bonus (+0.5) also fires.  So the claim's unconditional
scenario conclusion is false on the code. -/
theorem c5_counterexample :
    (applyFailures
        (record_success (record_success (record_success (record_success (initMatcher 6)
          ("next".toList) 20) ("next".toList) 20) ("next".toList) 20) ("next".toList) 20)
        [(1, "aa".toList, 5), (2, "aa".toList, 5), (3, "aa".toList, 5),
         (4, "aa".toList, 5), (5, "aa".toList, 5), (6, "aa".toList, 5)]).recent_failures.length
        = 6 ∧
    ((adjust_threshold (applyFailures
        (record_success (record_success (record_success (record_success (initMatcher 6)
          ("next".toList) 20) ("next".toList) 20) ("next".toList) 20) ("next".toList) 20)
        [(1, "aa".toList, 5), (2, "aa".toList, 5), (3, "aa".toList, 5),
         (4, "aa".toList, 5), (5, "aa".toList, 5), (6, "aa".toList, 5)])).map Prod.fst
        = some 6) ∧
    (6 : ℚ) ≠ max 3 (min 8 (6 - 1/2)) := by
  refine ⟨?_, ?_, ?_⟩
  · norm_num [applyFailures, record_failure, record_success, push_window, initMatcher,
      updatePron, bumpFreq]
  · norm_num [applyFailures, record_failure, record_success, push_window, initMatcher,
      updatePron, bumpFreq, adjust_threshold]
    rw [if_neg (show ¬([20, 20, 20, 20] : List ℚ) = [] by simp),
        if_neg (show ¬([5, 5, 5, 5, 5, 5] : List ℚ) = [] by simp)]
    norm_num
  · intro h
    rw [show max (3:ℚ) (min 8 (6 - 1/2)) = 11/2 by norm_num] at h
    norm_num at h

/-- The if-wrapped failure rate of the code equals the spec's plain
quotient. -/
theorem failure_rate_eq (L : List ℚ) :
    (if L = [] then (0:ℚ) else (L.length : ℚ) / 10) = (L.length : ℚ) / 10 := by
  by_cases hf : L = []
  · rw [if_pos hf, hf]; simp
  · rw [if_neg hf]

/-- The code's defaulted-average condition is the spec's guarded one. -/
theorem avg_cond_iff (S : List ℚ) :
    ((if S = [] then (10:ℚ) else S.sum / (S.length : ℚ)) > 12) ↔
      (S ≠ [] ∧ S.sum / (S.length : ℚ) > 12) := by
  by_cases hs : S = []
  · rw [if_pos hs]
    constructor
    · intro h; norm_num at h
    · rintro ⟨hne, -⟩; exact absurd hs hne
  · rw [if_neg hs]
    constructor
    · intro h; exact ⟨hs, h⟩
    · rintro ⟨-, h⟩; exact h

/-- The value computed by `adjust_threshold` matches the spec formula
(helper for C5). -/
theorem adjust_threshold_eq_spec (m : MatcherState) (hbase : m.base_threshold = 6) :
    (adjust_threshold m).map Prod.fst =
      some (spec_adjusted_threshold m.base_threshold m.recent_failures m.recent_successes) := by
  have hguard : ¬((if m.recent_failures = [] then (0:ℚ)
      else (m.recent_failures.length : ℚ) / 10) > 1/2 ∧ m.base_threshold ≠ 6) := by
    rintro ⟨-, hb⟩; exact hb hbase
  simp only [adjust_threshold, spec_adjusted_threshold]
  rw [if_neg hguard]
  rw [failure_rate_eq]
  rw [if_congr (avg_cond_iff m.recent_successes) rfl rfl]
  rfl

/-- C5 (amended): with the default base threshold 6 (the only base the
program constructs), `adjust_threshold` computes exactly the spec's
formula — `failure_rate = |recent_failures|/10`, `-0.5` when the rate
exceeds 0.5, `+0.5` when the success window is nonempty with average
above 12, clamped to [3, 8] — and the scenario conclusion
`clamp(base - 0.5, 3, 8)` holds when at least 6 failures are in the
window, provided the success-average bonus does not fire. -/
theorem c5_amended (m : MatcherState) (hbase : m.base_threshold = 6) :
    ((adjust_threshold m).map Prod.fst =
       some (spec_adjusted_threshold m.base_threshold m.recent_failures m.recent_successes)) ∧
    (6 ≤ m.recent_failures.length →
      ¬(m.recent_successes ≠ [] ∧
          m.recent_successes.sum / (m.recent_successes.length : ℚ) > 12) →
      (adjust_threshold m).map Prod.fst = some (max 3 (min 8 (m.base_threshold - 1/2)))) := by
  refine ⟨adjust_threshold_eq_spec m hbase, fun h6 hnb => ?_⟩
  rw [adjust_threshold_eq_spec m hbase]
  simp only [spec_adjusted_threshold]
  have hrate : ((m.recent_failures.length : ℚ) / 10) > 1/2 := by
    have : (6:ℚ) ≤ (m.recent_failures.length : ℚ) := by exact_mod_cast h6
    linarith
  rw [if_pos hrate, if_neg hnb]
  rw [sub_eq_add_neg]

/-- C5 witness: the amended statement applied to a fresh matcher with
the default base threshold. -/
theorem c5_amended_witness :
    (((adjust_threshold (initMatcher 6)).map Prod.fst =
       some (spec_adjusted_threshold (initMatcher 6).base_threshold
         (initMatcher 6).recent_failures (initMatcher 6).recent_successes)) ∧
    (6 ≤ (initMatcher 6).recent_failures.length →
      ¬((initMatcher 6).recent_successes ≠ [] ∧
          (initMatcher 6).recent_successes.sum /
            ((initMatcher 6).recent_successes.length : ℚ) > 12) →
      (adjust_threshold (initMatcher 6)).map Prod.fst =
        some (max 3 (min 8 ((initMatcher 6).base_threshold - 1/2))))) :=
  c5_amended (initMatcher 6) rfl

/-! ## Claim C7 -/

/-- One operation on the adaptive tracker. -/
inductive TrackerOp where
  | recordSuccessOp (command : Str) (score : ℚ)
  | recordFailureOp (t : ℚ) (text : Str) (score : ℚ)
  | adjustOp
  | getThresholdOp (command : Str)

/-- Run one operation; the optional rational is the threshold value the
operation returned for a decision, if any. -/
def runOp (m : MatcherState) : TrackerOp → Option (MatcherState × Option ℚ)
  | .recordSuccessOp c s => some (record_success m c s, none)
  | .recordFailureOp t txt s => some (record_failure t m txt s, none)
  | .adjustOp => (adjust_threshold m).map (fun p => (p.2, some p.1))
  | .getThresholdOp c => (get_adaptive_threshold m c).map (fun p => (p.2, some p.1))

/-- Run a finite sequence of tracker operations, collecting every
returned threshold value. -/
def runOps (m : MatcherState) : List TrackerOp → Option (MatcherState × List ℚ)
  | [] => some (m, [])
  | op :: ops => do
      let r ← runOp m op
      let rest ← runOps r.1 ops
      pure (rest.1, r.2.toList ++ rest.2)

/-- With the default base, `adjust_threshold` never fails, clamps its
value into [3, 8], sets `current_threshold` to that value, and leaves
every other field unchanged. -/
theorem adjust_threshold_bounds (m : MatcherState) (hb : m.base_threshold = 6) :
    ∃ th m', adjust_threshold m = some (th, m') ∧ 3 ≤ th ∧ th ≤ 8 ∧
      m' = { m with current_threshold := th } := by
  have hguard : ¬((if m.recent_failures = [] then (0:ℚ)
      else (m.recent_failures.length : ℚ) / 10) > 1/2 ∧ m.base_threshold ≠ 6) := by
    rintro ⟨-, hbb⟩; exact hbb hb
  simp only [adjust_threshold]
  rw [if_neg hguard]
  refine ⟨_, _, rfl, le_max_left _ _, ?_, rfl⟩
  exact max_le (by norm_num) (min_le_left _ _)

/-- `get_adaptive_threshold` (default base) never fails, its returned
value stays in [3, 8], and the state change is that of the inner
`adjust_threshold`. -/
theorem get_adaptive_threshold_bounds (m : MatcherState) (c : Str)
    (hb : m.base_threshold = 6) :
    ∃ th m', get_adaptive_threshold m c = some (th, m') ∧ 3 ≤ th ∧ th ≤ 8 ∧
      m'.base_threshold = m.base_threshold ∧
      3 ≤ m'.current_threshold ∧ m'.current_threshold ≤ 8 := by
  obtain ⟨th0, m', hadj, h3, h8, hm'⟩ := adjust_threshold_bounds m hb
  have hmb : m'.base_threshold = m.base_threshold := by rw [hm']
  have hmc3 : 3 ≤ m'.current_threshold := by rw [hm']; exact h3
  have hmc8 : m'.current_threshold ≤ 8 := by rw [hm']; exact h8
  simp only [get_adaptive_threshold, hadj, Option.map_some']
  by_cases hc : c = []
  · refine ⟨th0, m', ?_, h3, h8, hmb, hmc3, hmc8⟩
    rw [if_pos hc]
  · rw [if_neg hc]
    cases hl : m'.command_frequency.lookup c with
    | none => exact ⟨th0, m', rfl, h3, h8, hmb, hmc3, hmc8⟩
    | some f =>
      by_cases hf : f > 10
      · refine ⟨3 ⊔ (th0 - 1/2), m', ?_, le_max_left _ _, ?_, hmb, hmc3, hmc8⟩
        · show some (if f > 10 then ((3:ℚ) ⊔ (th0 - 1/2), m') else (th0, m')) = _
          rw [if_pos hf]
        · exact max_le (by norm_num) (le_trans (by linarith) h8)
      · refine ⟨th0, m', ?_, h3, h8, hmb, hmc3, hmc8⟩
        show some (if f > 10 then ((3:ℚ) ⊔ (th0 - 1/2), m') else (th0, m')) = _
        rw [if_neg hf]

/-- Record operations change neither threshold field. -/
theorem record_preserves_thresholds :
    (∀ m c s, (record_success m c s).base_threshold = m.base_threshold ∧
       (record_success m c s).current_threshold = m.current_threshold) ∧
    (∀ m t txt s, (record_failure t m txt s).base_threshold = m.base_threshold ∧
       (record_failure t m txt s).current_threshold = m.current_threshold) :=
  ⟨fun _ _ _ => ⟨rfl, rfl⟩, fun _ _ _ _ => ⟨rfl, rfl⟩⟩

/-- Generalized C7 invariant, for any state with the default base and an
in-range current threshold. -/
theorem runOps_invariant (ops : List TrackerOp) :
    ∀ m : MatcherState, m.base_threshold = 6 →
      3 ≤ m.current_threshold → m.current_threshold ≤ 8 →
      ∃ mf outs, runOps m ops = some (mf, outs) ∧
        3 ≤ mf.current_threshold ∧ mf.current_threshold ≤ 8 ∧
        ∀ x ∈ outs, 3 ≤ x ∧ x ≤ 8 := by
  induction ops with
  | nil =>
    intro m hb h3 h8
    exact ⟨m, [], rfl, h3, h8, by simp⟩
  | cons op ops ih =>
    intro m hb h3 h8
    have hstep : ∃ m' v, runOp m op = some (m', v) ∧ m'.base_threshold = 6 ∧
        3 ≤ m'.current_threshold ∧ m'.current_threshold ≤ 8 ∧
        ∀ x ∈ v.toList, 3 ≤ x ∧ x ≤ 8 := by
      cases op with
      | recordSuccessOp c s =>
        refine ⟨record_success m c s, none, rfl, ?_, ?_, ?_, by simp⟩
        · rw [(record_preserves_thresholds.1 m c s).1, hb]
        · rw [(record_preserves_thresholds.1 m c s).2]; exact h3
        · rw [(record_preserves_thresholds.1 m c s).2]; exact h8
      | recordFailureOp t txt s =>
        refine ⟨record_failure t m txt s, none, rfl, ?_, ?_, ?_, by simp⟩
        · rw [(record_preserves_thresholds.2 m t txt s).1, hb]
        · rw [(record_preserves_thresholds.2 m t txt s).2]; exact h3
        · rw [(record_preserves_thresholds.2 m t txt s).2]; exact h8
      | adjustOp =>
        obtain ⟨th, m', hadj, ht3, ht8, hm'⟩ := adjust_threshold_bounds m hb
        refine ⟨m', some th, ?_, ?_, ?_, ?_, ?_⟩
        · simp only [runOp, hadj, Option.map_some']
        · rw [hm']; exact hb
        · rw [hm']; exact ht3
        · rw [hm']; exact ht8
        · intro x hx
          simp only [Option.toList_some, List.mem_singleton] at hx
          subst hx; exact ⟨ht3, ht8⟩
      | getThresholdOp c =>
        obtain ⟨th, m'', hget, hg3, hg8, hgb, hgc3, hgc8⟩ := get_adaptive_threshold_bounds m c hb
        refine ⟨m'', some th, ?_, ?_, hgc3, hgc8, ?_⟩
        · simp only [runOp, hget, Option.map_some']
        · rw [hgb]; exact hb
        · intro x hx
          simp only [Option.toList_some, List.mem_singleton] at hx
          subst hx; exact ⟨hg3, hg8⟩
    obtain ⟨m', v, hop, hb', h3', h8', hv⟩ := hstep
    obtain ⟨mf, outs, hrest, hf3, hf8, houts⟩ := ih m' hb' h3' h8'
    refine ⟨mf, v.toList ++ outs, ?_, hf3, hf8, ?_⟩
    · simp only [runOps, bind, Option.bind, hop, hrest]
      rfl
    · intro x hx
      rcases List.mem_append.mp hx with hx | hx
      · exact hv x hx
      · exact houts x hx

/-- C7: starting from the default-base tracker, any finite sequence of
`record_success`, `record_failure`, `adjust_threshold` and
`get_adaptive_threshold` operations succeeds, leaves
`current_threshold` in [3, 8], and every threshold value returned for a
decision (including those lowered by the per-command frequency leniency,
which is floored at 3) lies in [3, 8]. -/
theorem c7_threshold_invariant (ops : List TrackerOp) :
    ∃ mf outs, runOps (initMatcher 6) ops = some (mf, outs) ∧
      3 ≤ mf.current_threshold ∧ mf.current_threshold ≤ 8 ∧
      ∀ x ∈ outs, 3 ≤ x ∧ x ≤ 8 :=
  runOps_invariant ops (initMatcher 6) rfl (by norm_num [initMatcher]) (by norm_num [initMatcher])

/-! ## Claims C8 and C3: detect-level short circuits -/

/-- `containsSub` finds only substrings built from the haystack's
characters. -/
theorem containsSub_chars {hay pat : Str} (h : containsSub hay pat = true) :
    ∀ c ∈ pat, c ∈ hay := by
  induction hay with
  | nil =>
    simp only [containsSub, List.isEmpty_iff] at h
    subst h
    simp
  | cons a t ih =>
    simp only [containsSub, Bool.or_eq_true] at h
    rcases h with h | h
    · have := (List.isPrefixOf_iff_prefix.mp h).subset
      intro c hc
      exact this hc
    · intro c hc
      exact List.mem_cons_of_mem _ (ih h c hc)

/-- Normalized case split for whitespace characters. -/
theorem whitespace_cases {c : Char} (h : c.isWhitespace = true) :
    c = ' ' ∨ c = '\t' ∨ c = '\r' ∨ c = '\n' := by
  simp only [Char.isWhitespace, Bool.or_eq_true, decide_eq_true_eq] at h
  tauto

/-- Lowercasing keeps whitespace whitespace. -/
theorem toLower_whitespace {c : Char} (h : c.isWhitespace) : (c.toLower).isWhitespace := by
  rcases whitespace_cases h with rfl | rfl | rfl | rfl <;> decide

/-- Stripping an all-whitespace string yields the empty string. -/
theorem pyStrip_all_whitespace {s : Str} (h : ∀ c ∈ s, c.isWhitespace) : pyStrip s = [] := by
  have h1 : pyLstrip s = [] := by
    rw [pyLstrip, List.dropWhile_eq_nil_iff]
    exact h
  rw [pyStrip, h1]
  rfl

/-- An injection keyword is never found in all-whitespace input. -/
theorem check_injection_whitespace {s : Str} (h : ∀ c ∈ s, c.isWhitespace) :
    check_injection_attempt s = false := by
  rw [check_injection_attempt]
  rw [List.any_eq_false]
  intro k hk
  simp only [Bool.not_eq_true]
  cases hcs : containsSub (pyLower s) k with
  | false => rfl
  | true =>
    exfalso
    have hlow : ∀ c ∈ pyLower s, c.isWhitespace := by
      intro c hc
      obtain ⟨d, hd, rfl⟩ := List.mem_map.mp hc
      exact toLower_whitespace (h d hd)
    have hkeys : ∀ q ∈ dangerous_keywords, ∃ c ∈ q, ¬(c.isWhitespace = true) := by decide
    obtain ⟨c, hck, hcnws⟩ := hkeys k hk
    exact hcnws (hlow c (containsSub_chars hcs c hck))

/-- Dangerous-pattern scanning finds nothing in all-whitespace input. -/
theorem is_dangerous_whitespace {s : Str} (h : ∀ c ∈ s, c.isWhitespace) :
    is_dangerous s = false := by
  rw [is_dangerous]
  simp only [Bool.or_eq_false_iff]
  refine ⟨⟨⟨?_, ?_⟩, ?_⟩, ?_⟩
  · rw [List.any_eq_false]
    intro c hc
    rcases whitespace_cases (h c hc) with rfl | rfl | rfl | rfl <;> decide
  · induction s with
    | nil => rfl
    | cons a t ih =>
      have hdot : ¬a = '.' := by
        rcases whitespace_cases (h a (List.mem_cons_self _ _)) with rfl | rfl | rfl | rfl <;>
          decide
      simp only [hasTraversal, decide_eq_true_eq, Bool.or_eq_false_iff]
      constructor
      · simp [hdot]
      · exact ih (fun c hc => h c (List.mem_cons_of_mem _ hc))
  · rw [List.any_eq_false]
    intro c hc
    rcases whitespace_cases (h c hc) with rfl | rfl | rfl | rfl <;> decide
  · cases hcs : containsSub s ("--".toList) with
    | false => rfl
    | true =>
      exfalso
      exact absurd (h '-' (containsSub_chars hcs '-' (by decide))) (by decide)

/-- Validation rejects empty and all-whitespace input. -/
theorem validate_whitespace_none {text : Str} (h : ∀ c ∈ text, c.isWhitespace) :
    validate_and_sanitize text = none := by
  unfold validate_and_sanitize
  cases text with
  | nil => rw [if_pos rfl]
  | cons a t =>
    rw [if_neg (by simp)]
    rw [check_injection_whitespace h]
    rw [if_neg (by simp)]
    rw [is_dangerous_whitespace h]
    rw [if_neg (by simp)]
    have hsan : sanitize_voice_input (a :: t) = [] := by
      unfold sanitize_voice_input
      rw [if_neg (by simp)]
      have hlow : ∀ c ∈ pyLower (a :: t), c.isWhitespace := by
        intro c hc
        obtain ⟨d, hd, rfl⟩ := List.mem_map.mp hc
        exact toLower_whitespace (h d hd)
      rw [pyStrip_all_whitespace hlow]
      rfl
    rw [hsan]
    rw [if_pos (Or.inl rfl)]

/-- C8: for the empty string and for any all-whitespace input, `detect`
rejects at validation: the result is the Python `None` and the whole
detector state — threshold windows, pronunciation map, cooldown
timestamp and unrecognized-input sink — is unchanged, so no candidate is
scored and no state is mutated. -/
theorem c8_validation_rejection (fa : Bool) (fr : Str → Str → ℕ) (now : ℚ)
    (st : DetectorState) (text : Str) (h : ∀ c ∈ text, c.isWhitespace) :
    detect fa fr now st text = (.noResult, st) := by
  unfold detect
  rw [validate_whitespace_none h]

/-- C8 witness: the theorem applied to the empty string and to `"   "`
on the freshly initialized detector. -/
theorem c8_validation_rejection_witness :
    detect false (fun _ _ => 0) 10 initDetector ("".toList) = (.noResult, initDetector) ∧
    detect false (fun _ _ => 0) 10 initDetector ("   ".toList) = (.noResult, initDetector) :=
  ⟨c8_validation_rejection false (fun _ _ => 0) 10 initDetector ("".toList) (by decide),
   c8_validation_rejection false (fun _ _ => 0) 10 initDetector ("   ".toList) (by decide)⟩

/-- C3: a `detect` call made strictly less than `cooldown_seconds = 2`
after the last accepted detection is a rejected no-op (Python `None`,
state unchanged — so neither the catalog scan nor any state mutation is
observable), and the cooldown timestamp changes only when the call
returns `Matched`, never on an `Unknown` or rejected result. -/
theorem c3_cooldown (fa : Bool) (fr : Str → Str → ℕ) (now : ℚ)
    (st : DetectorState) (text : Str) :
    (now - st.last_execution_time < 2 → detect fa fr now st text = (.noResult, st)) ∧
    (∀ res st', detect fa fr now st text = (res, st') →
      st'.last_execution_time ≠ st.last_execution_time → ∃ best, res = .matched best) := by
  constructor
  · intro hcool
    unfold detect
    split
    · rfl
    · rw [if_pos hcool]
  · intro res st' hdet hne
    unfold detect at hdet
    split at hdet
    · injection hdet with h1 h2
      exact absurd (by rw [← h2]) hne
    · split at hdet
      · injection hdet with h1 h2
        exact absurd (by rw [← h2]) hne
      · split at hdet
        · injection hdet with h1 h2
          exact absurd (by rw [← h2]) hne
        · simp only [] at hdet
          split at hdet
          · injection hdet with h1 h2
            exact absurd (by rw [← h2]) hne
          · split at hdet
            · split at hdet
              · injection hdet with h1 h2
                exact ⟨_, h1.symm⟩
              · injection hdet with h1 h2
                exact absurd (by rw [← h2]) hne
            · injection hdet with h1 h2
              exact absurd (by rw [← h2]) hne

/-- C3 witness: the cooldown no-op discharged on a concrete call 1
second after an acceptance at time 0. -/
theorem c3_cooldown_witness :
    detect false (fun _ _ => 0) 1 initDetector ("next slide".toList) =
      (.noResult, initDetector) :=
  (c3_cooldown false (fun _ _ => 0) 1 initDetector ("next slide".toList)).1
    (by norm_num [initDetector])

/-! ## Claim C6: ranking tie-break -/

theorem key_le_iff (a b : ℚ × ℚ × ℚ) :
    key_le a b = true ↔
      (a.1 < b.1 ∨ (a.1 = b.1 ∧ (a.2.1 < b.2.1 ∨ (a.2.1 = b.2.1 ∧ a.2.2 ≤ b.2.2)))) := by
  simp [key_le]

theorem key_le_trans (a b c : ℚ × ℚ × ℚ)
    (hab : key_le a b = true) (hbc : key_le b c = true) : key_le a c = true := by
  rw [key_le_iff] at hab hbc ⊢
  rcases hab with h1 | ⟨e1, h1⟩
  · rcases hbc with h2 | ⟨e2, h2⟩
    · exact Or.inl (lt_trans h1 h2)
    · exact Or.inl (e2 ▸ h1)
  · rcases hbc with h2 | ⟨e2, h2⟩
    · exact Or.inl (e1 ▸ h2)
    · refine Or.inr ⟨e1.trans e2, ?_⟩
      rcases h1 with h1 | ⟨f1, h1⟩
      · rcases h2 with h2 | ⟨f2, h2⟩
        · exact Or.inl (lt_trans h1 h2)
        · exact Or.inl (f2 ▸ h1)
      · rcases h2 with h2 | ⟨f2, h2⟩
        · exact Or.inl (f1 ▸ h2)
        · exact Or.inr ⟨f1.trans f2, le_trans h1 h2⟩

theorem key_le_total (a b : ℚ × ℚ × ℚ) :
    (key_le a b || key_le b a) = true := by
  simp only [Bool.or_eq_true, key_le_iff]
  rcases lt_trichotomy a.1 b.1 with h | h | h
  · exact Or.inl (Or.inl h)
  · rcases lt_trichotomy a.2.1 b.2.1 with h2 | h2 | h2
    · exact Or.inl (Or.inr ⟨h, Or.inl h2⟩)
    · rcases le_total a.2.2 b.2.2 with h3 | h3
      · exact Or.inl (Or.inr ⟨h, Or.inr ⟨h2, h3⟩⟩)
      · exact Or.inr (Or.inr ⟨h.symm, Or.inr ⟨h2.symm, h3⟩⟩)
    · exact Or.inr (Or.inr ⟨h.symm, Or.inl h2⟩)
  · exact Or.inr (Or.inl h)

/-- The comparison used by `rank_results`. -/
def cand_le (text : Str) (a b : Candidate) : Bool :=
  key_le (sort_key text a) (sort_key text b)

theorem cand_le_trans (text : Str) :
    ∀ a b c, cand_le text a b = true → cand_le text b c = true → cand_le text a c = true :=
  fun _ _ _ hab hbc => key_le_trans _ _ _ hab hbc

theorem cand_le_total (text : Str) :
    ∀ a b, (cand_le text a b || cand_le text b a) = true :=
  fun a b => key_le_total _ _

/-- `rank_results` is the merge sort by `cand_le`. -/
theorem rank_results_eq (text : Str) (rs : List Candidate) :
    rank_results text rs = rs.mergeSort (cand_le text) := rfl

/-- The ranked list is pairwise ordered by the sort key. -/
theorem rank_results_pairwise (text : Str) (rs : List Candidate) :
    (rank_results text rs).Pairwise (fun a b => cand_le text a b = true) :=
  List.sorted_mergeSort (cand_le_trans text) (cand_le_total text) rs

/-- C6: in the ranked candidate list of a detect call, among two
candidates with equal score, the one with the strictly higher token
overlap ratio is ranked first; with equal score and equal ratio, the one
whose phrase has strictly more tokens is ranked first. -/
theorem c6_tie_break (text : Str) (rs : List Candidate) (i j : ℕ)
    (hi : i < (rank_results text rs).length) (hj : j < (rank_results text rs).length)
    (hscore : ((rank_results text rs).get ⟨i, hi⟩).score =
      ((rank_results text rs).get ⟨j, hj⟩).score)
    (h : match_quality text (((rank_results text rs).get ⟨i, hi⟩).phrase) >
           match_quality text (((rank_results text rs).get ⟨j, hj⟩).phrase) ∨
         (match_quality text (((rank_results text rs).get ⟨i, hi⟩).phrase) =
            match_quality text (((rank_results text rs).get ⟨j, hj⟩).phrase) ∧
          (pySplit (((rank_results text rs).get ⟨i, hi⟩).phrase)).length >
            (pySplit (((rank_results text rs).get ⟨j, hj⟩).phrase)).length)) :
    i < j := by
  by_contra hij
  push_neg at hij
  have hne : i ≠ j := by
    rintro rfl
    rcases h with h | ⟨he, h⟩
    · exact lt_irrefl _ h
    · exact lt_irrefl _ h
  have hji : j < i := lt_of_le_of_ne hij (fun e => hne e.symm)
  have hpw := rank_results_pairwise text rs
  rw [List.pairwise_iff_get] at hpw
  have hle := hpw ⟨j, hj⟩ ⟨i, hi⟩ hji
  rw [cand_le, key_le_iff] at hle
  set a := (rank_results text rs).get ⟨i, hi⟩ with ha
  set b := (rank_results text rs).get ⟨j, hj⟩ with hb
  simp only [sort_key] at hle
  rcases hle with h1 | ⟨e1, h1⟩
  · rw [hscore] at h1
    exact lt_irrefl _ h1
  · rcases h1 with h2 | ⟨e2, h2⟩
    · rcases h with hq | ⟨he, -⟩
      · exact absurd (neg_lt_neg hq) (lt_asymm h2)
      · rw [he] at h2
        exact lt_irrefl _ h2
    · rcases h with hq | ⟨he, hlen⟩
      · rw [neg_inj] at e2
        rw [e2] at hq
        exact lt_irrefl _ hq
      · rw [neg_le_neg_iff] at h2
        have : ((pySplit a.phrase).length : ℚ) ≤ ((pySplit b.phrase).length : ℚ) := by
          exact_mod_cast h2
        have hcast : ((pySplit b.phrase).length : ℚ) < ((pySplit a.phrase).length : ℚ) := by
          exact_mod_cast hlen
        exact absurd hcast (not_lt.mpr this)

/-- C6 witness: two equal-score candidates for the utterance `"a b"`,
with overlap ratios 1 and 0; the ranking puts the higher-ratio one
first, and the theorem applies at positions 0 and 1. -/
theorem c6_tie_break_witness :
    rank_results ("a b".toList)
        [⟨"x".toList, "a b".toList, 10, 30, []⟩, ⟨"y".toList, "c d".toList, 10, 30, []⟩] =
      [⟨"x".toList, "a b".toList, 10, 30, []⟩, ⟨"y".toList, "c d".toList, 10, 30, []⟩] ∧
    (0 : ℕ) < 1 := by
  have hq1 : match_quality ("a b".toList) ("a b".toList) = 1 := by
    simp only [match_quality,
      show pySplit ("a b".toList) = [['a'], ['b']] from by decide,
      show pyDedup [['a'], ['b']] = [['a'], ['b']] from by decide,
      show List.filter (fun w => decide (w ∈ [['a'], ['b']])) [['a'], ['b']] =
        [['a'], ['b']] from by decide]
    norm_num
  have hq2 : match_quality ("a b".toList) ("c d".toList) = 0 := by
    simp only [match_quality,
      show pySplit ("a b".toList) = [['a'], ['b']] from by decide,
      show pySplit ("c d".toList) = [['c'], ['d']] from by decide,
      show pyDedup [['c'], ['d']] = [['c'], ['d']] from by decide,
      show List.filter (fun w => decide (w ∈ [['a'], ['b']])) [['c'], ['d']] =
        [] from by decide]
    norm_num
  have hk1 : sort_key ("a b".toList) ⟨"x".toList, "a b".toList, 10, 30, []⟩ =
      (-10, -1, -2) := by
    simp only [sort_key, hq1, show pySplit ("a b".toList) = [['a'], ['b']] from by decide]
    norm_num
  have hk2 : sort_key ("a b".toList) ⟨"y".toList, "c d".toList, 10, 30, []⟩ =
      (-10, 0, -2) := by
    simp only [sort_key, hq2, show pySplit ("c d".toList) = [['c'], ['d']] from by decide]
    norm_num
  have hle12 : cand_le ("a b".toList) ⟨"x".toList, "a b".toList, 10, 30, []⟩
      ⟨"y".toList, "c d".toList, 10, 30, []⟩ = true := by
    rw [cand_le, hk1, hk2, key_le]
    apply decide_eq_true
    norm_num
  have hlist : rank_results ("a b".toList)
      [⟨"x".toList, "a b".toList, 10, 30, []⟩, ⟨"y".toList, "c d".toList, 10, 30, []⟩] =
      [⟨"x".toList, "a b".toList, 10, 30, []⟩, ⟨"y".toList, "c d".toList, 10, 30, []⟩] := by
    obtain ⟨l1, l2, h1, h2, h3⟩ :=
      List.mergeSort_cons (cand_le_trans ("a b".toList)) (cand_le_total ("a b".toList))
        ⟨"x".toList, "a b".toList, 10, 30, []⟩ [⟨"y".toList, "c d".toList, 10, 30, []⟩]
    rw [List.mergeSort_singleton] at h2
    cases l1 with
    | nil =>
      simp only [List.nil_append] at h1 h2
      rw [rank_results_eq]
      rw [h1, ← h2]
    | cons x xs =>
      have hx : x = ⟨"y".toList, "c d".toList, 10, 30, []⟩ := by
        have := congrArg (fun l => l.head?) h2
        simp at this
        exact this.symm
      have hcontra := h3 x (List.mem_cons_self _ _)
      rw [hx] at hcontra
      rw [hle12] at hcontra
      simp at hcontra
  refine ⟨hlist, ?_⟩
  have hlen : (rank_results ("a b".toList)
      [⟨"x".toList, "a b".toList, 10, 30, []⟩, ⟨"y".toList, "c d".toList, 10, 30, []⟩]).length
      = 2 := by rw [hlist]; rfl
  have hi0 : 0 < (rank_results ("a b".toList)
      [⟨"x".toList, "a b".toList, 10, 30, []⟩, ⟨"y".toList, "c d".toList, 10, 30, []⟩]).length := by
    rw [hlen]; norm_num
  have hi1 : 1 < (rank_results ("a b".toList)
      [⟨"x".toList, "a b".toList, 10, 30, []⟩, ⟨"y".toList, "c d".toList, 10, 30, []⟩]).length := by
    rw [hlen]; norm_num
  have hget0 : (rank_results ("a b".toList)
      [⟨"x".toList, "a b".toList, 10, 30, []⟩, ⟨"y".toList, "c d".toList, 10, 30, []⟩]).get
        ⟨0, hi0⟩ = ⟨"x".toList, "a b".toList, 10, 30, []⟩ :=
    (List.get_of_eq hlist ⟨0, hi0⟩).trans rfl
  have hget1 : (rank_results ("a b".toList)
      [⟨"x".toList, "a b".toList, 10, 30, []⟩, ⟨"y".toList, "c d".toList, 10, 30, []⟩]).get
        ⟨1, hi1⟩ = ⟨"y".toList, "c d".toList, 10, 30, []⟩ :=
    (List.get_of_eq hlist ⟨1, hi1⟩).trans rfl
  refine c6_tie_break ("a b".toList)
    [⟨"x".toList, "a b".toList, 10, 30, []⟩, ⟨"y".toList, "c d".toList, 10, 30, []⟩]
    0 1 hi0 hi1 ?_ ?_
  · rw [hget0, hget1]
  · rw [hget0, hget1]
    refine Or.inl ?_
    show match_quality ("a b".toList) ("a b".toList) > match_quality ("a b".toList) ("c d".toList)
    rw [hq1, hq2]
    norm_num

/-! ## Claim C1: the acceptance decision -/

/-- Catalog facts usable without evaluating the expanded phrase sets:
every command's weight lies in [7, 18] and every command id passes the
safety whitelist. -/
theorem wake_words_entry_facts :
    ∀ e ∈ wake_words, 7 ≤ e.weight ∧ e.weight ≤ 18 ∧ validate_command e.id = true := by
  intro e he
  simp only [wake_words, List.mem_cons, List.not_mem_nil, or_false] at he
  rcases he with rfl | rfl | rfl | rfl | rfl | rfl | rfl | rfl | rfl | rfl | rfl | rfl | rfl | rfl <;>
    exact ⟨by norm_num, by norm_num, by decide⟩

/-- Scan membership: every candidate comes from one catalog entry and
one phrase, with a positive score computed by `score_phrase`. -/
theorem scan_results_mem {fa : Bool} {fr : Str → Str → ℕ} {text : Str} {x : Candidate}
    (hx : x ∈ scan_results fa fr text) :
    ∃ e ∈ wake_words, ∃ p ∈ e.phrases,
      x = ⟨e.id, p, score_phrase fa fr e.weight p text, e.weight + 20, e.description⟩ ∧
      0 < score_phrase fa fr e.weight p text := by
  unfold scan_results at hx
  obtain ⟨e, he, hx⟩ := List.mem_flatMap.mp hx
  obtain ⟨p, hp, hfx⟩ := List.mem_filterMap.mp hx
  by_cases hpos : 0 < score_phrase fa fr e.weight p text
  · rw [if_pos hpos] at hfx
    injection hfx with hfx
    exact ⟨e, he, p, hp, hfx.symm, hpos⟩
  · rw [if_neg hpos] at hfx
    exact absurd hfx (by simp)

/-- A positive score of the per-phrase scorer is at least `weight + 1`,
hence at least 8 for catalog weights. -/
theorem score_phrase_pos_ge {fa : Bool} {fr : Str → Str → ℕ} {w : ℚ} {p text : Str}
    (hw : 7 ≤ w) (hpos : 0 < score_phrase fa fr w p text) :
    8 ≤ score_phrase fa fr w p text := by
  unfold score_phrase at hpos ⊢
  set base : ℚ := (if p = text then w + 20
    else if containsSub text p then w + 10
    else
      let phrase_words := pySplit p
      let text_words := pySplit text
      let matching_words := phrase_words.filter (fun v => decide (v ∈ text_words))
      if 2 ≤ matching_words.length then w + 3 * matching_words.length
      else if matching_words.length = 1 ∧ phrase_words.length ≤ 2 then w + 1
      else 0) with hbase
  have hbase_cases : base = 0 ∨ 8 ≤ base := by
    rw [hbase]
    by_cases h1 : p = text
    · rw [if_pos h1]; right; linarith
    · rw [if_neg h1]
      by_cases h2 : containsSub text p = true
      · rw [if_pos h2]; right; linarith
      · rw [if_neg h2]
        by_cases h3 : 2 ≤ ((pySplit p).filter (fun v => decide (v ∈ pySplit text))).length
        · rw [if_pos h3]
          right
          have : (2 : ℚ) ≤ ((pySplit p).filter (fun v => decide (v ∈ pySplit text))).length := by
            exact_mod_cast h3
          linarith
        · rw [if_neg h3]
          by_cases h4 : ((pySplit p).filter (fun v => decide (v ∈ pySplit text))).length = 1 ∧
              (pySplit p).length ≤ 2
          · rw [if_pos h4]; right; linarith
          · rw [if_neg h4]; left; rfl
  by_cases hz : base = 0 ∧ fa = true
  · rw [if_pos hz] at hpos ⊢
    by_cases h85 : 85 ≤ fr text p
    · rw [if_pos h85] at hpos ⊢
      have : (85 : ℚ) ≤ (fr text p : ℚ) := by exact_mod_cast h85
      have : (85 : ℚ) / 20 ≤ (fr text p : ℚ) / 20 := by linarith
      linarith
    · rw [if_neg h85] at hpos
      exact absurd hpos (lt_irrefl 0)
  · rw [if_neg hz] at hpos ⊢
    rcases hbase_cases with h0 | h8
    · rw [h0] at hpos
      exact absurd hpos (lt_irrefl 0)
    · exact h8

/-- Evaluation of an accepting `detect` call. -/
theorem detect_matched_eval (fa : Bool) (fr : Str → Str → ℕ) (now : ℚ)
    (st : DetectorState) (text s : Str) {best : Candidate} {rest : List Candidate}
    (hval : validate_and_sanitize text = some s)
    (hcool : ¬(now - st.last_execution_time < 2))
    (hshort : ¬(s = [] ∨ (pyStrip s).length < 2))
    (hrank : rank_results (pyStrip (pyLower s)) (scan_results fa fr (pyStrip (pyLower s))) =
      best :: rest)
    (h8 : 8 ≤ best.score) (hvc : validate_command best.command = true) :
    detect fa fr now st text =
      (.matched best,
       { st with last_execution_time := now,
                 matcher := record_success st.matcher best.command best.score }) := by
  unfold detect
  split
  · rename_i heq
    rw [hval] at heq
    exact absurd heq (by simp)
  · rename_i s' heq
    rw [hval] at heq
    injection heq with heq
    subst heq
    rw [if_neg hcool, if_neg hshort]
    simp only []
    split
    · rename_i heq2
      rw [hrank] at heq2
      exact absurd heq2 (by simp)
    · rename_i best' tail heq2
      rw [hrank] at heq2
      injection heq2 with hb ht
      subst hb
      subst ht
      rw [if_pos h8, if_pos hvc]

/-- C1: when the call reaches a catalog scan with at least one
positive-score candidate, the decision agrees with the adaptive
threshold: `detect` returns `Matched` on the top-ranked candidate iff
that candidate's score is at least the `get_adaptive_threshold` value
for its command (with the per-command frequency leniency), and a
below-threshold top candidate would yield an `Unknown` carrying the
candidate's description as suggestion.  (Extensionally this holds even
though the code compares against the literal 8.0: every positive
candidate scores at least `weight + 1 ≥ 8`, while the adaptive threshold
is clamped to at most 8.) -/
theorem c1_adaptive_threshold_decision (fa : Bool) (fr : Str → Str → ℕ) (now : ℚ)
    (st : DetectorState) (text s : Str)
    (hbase : st.matcher.base_threshold = 6)
    (hval : validate_and_sanitize text = some s)
    (hcool : ¬(now - st.last_execution_time < 2))
    (hshort : ¬(s = [] ∨ (pyStrip s).length < 2))
    (hscan : scan_results fa fr (pyStrip (pyLower s)) ≠ []) :
    ∃ best rest th m',
      rank_results (pyStrip (pyLower s)) (scan_results fa fr (pyStrip (pyLower s))) =
        best :: rest ∧
      get_adaptive_threshold st.matcher best.command = some (th, m') ∧
      (((detect fa fr now st text).1 = .matched best) ↔ th ≤ best.score) ∧
      (best.score < th →
        ∃ st', detect fa fr now st text =
          (.unknownLow best.score best.description (pyStrip (pyLower s)), st')) := by
  cases hrank : rank_results (pyStrip (pyLower s)) (scan_results fa fr (pyStrip (pyLower s))) with
  | nil =>
    exfalso
    have hperm := List.mergeSort_perm (scan_results fa fr (pyStrip (pyLower s)))
      (cand_le (pyStrip (pyLower s)))
    rw [rank_results_eq] at hrank
    rw [hrank] at hperm
    exact hscan hperm.symm.eq_nil
  | cons best rest =>
    have hbestmem : best ∈ scan_results fa fr (pyStrip (pyLower s)) := by
      have hmem : best ∈ rank_results (pyStrip (pyLower s))
          (scan_results fa fr (pyStrip (pyLower s))) := by
        rw [hrank]; exact List.mem_cons_self _ _
      rw [rank_results_eq] at hmem
      exact (List.mergeSort_perm _ _).mem_iff.mp hmem
    obtain ⟨e, he, p, hp, hxeq, hpos⟩ := scan_results_mem hbestmem
    obtain ⟨hw7, hw18, hsafe⟩ := wake_words_entry_facts e he
    have h8 : 8 ≤ best.score := by
      rw [hxeq]
      exact score_phrase_pos_ge hw7 hpos
    have hvc : validate_command best.command = true := by
      rw [hxeq]
      exact hsafe
    obtain ⟨th, m', hget, hth3, hth8, -, -, -⟩ :=
      get_adaptive_threshold_bounds st.matcher best.command hbase
    refine ⟨best, rest, th, m', rfl, hget, ?_, ?_⟩
    · constructor
      · intro _
        exact le_trans hth8 h8
      · intro _
        rw [detect_matched_eval fa fr now st text s hval hcool hshort hrank h8 hvc]
    · intro hlt
      exact absurd (lt_of_lt_of_le hlt (le_trans hth8 h8)) (lt_irrefl _)

/-- C1 witness: the call `detect("help menu")` on a fresh detector at
time 10; the scan contains the exact-match candidate of the `help`
command. -/
theorem c1_adaptive_threshold_decision_witness :
    ∃ best rest th m',
      rank_results (pyStrip (pyLower ("help menu".toList)))
          (scan_results false (fun _ _ => 0) (pyStrip (pyLower ("help menu".toList)))) =
        best :: rest ∧
      get_adaptive_threshold initDetector.matcher best.command = some (th, m') ∧
      (((detect false (fun _ _ => 0) 10 initDetector ("help menu".toList)).1 =
          .matched best) ↔ th ≤ best.score) ∧
      (best.score < th →
        ∃ st', detect false (fun _ _ => 0) 10 initDetector ("help menu".toList) =
          (.unknownLow best.score best.description (pyStrip (pyLower ("help menu".toList))),
           st')) := by
  have hsc : score_phrase false (fun _ _ => 0) 8 ("help menu".toList) ("help menu".toList)
      = 28 := by
    simp only [score_phrase]
    norm_num
  have hmem : (⟨"help".toList, "help menu".toList, 28, 28, "Tampilkan bantuan".toList⟩ :
      Candidate) ∈ scan_results false (fun _ _ => 0) (pyStrip (pyLower ("help menu".toList))) := by
    have hstrip : pyStrip (pyLower ("help menu".toList)) = "help menu".toList := by decide
    rw [hstrip]
    unfold scan_results
    refine List.mem_flatMap.mpr ⟨⟨"help".toList, help_phrases, 8, "Tampilkan bantuan".toList⟩,
      ?_, ?_⟩
    · exact List.mem_cons_of_mem _ (List.mem_cons_of_mem _ (List.mem_cons_of_mem _
        (List.mem_cons_of_mem _ (List.mem_cons_self _ _))))
    · refine List.mem_filterMap.mpr ⟨"help menu".toList, by decide, ?_⟩
      simp only [hsc]
      rw [if_pos (by norm_num : (0:ℚ) < 28)]
      norm_num
  exact c1_adaptive_threshold_decision false (fun _ _ => 0) 10 initDetector
    ("help menu".toList) ("help menu".toList) rfl (by decide)
    (by norm_num [initDetector]) (by decide) (List.ne_nil_of_mem hmem)

/-! ## Claim C4: exact phrases are detected with score weight + 20 -/

/-- A phrase is validation-stable: it survives `validate_and_sanitize`
unchanged, is already lower case and stripped, and has at most 3
whitespace-delimited tokens of text at least 2 characters long. -/
def goodB (p : Str) : Bool :=
  (validate_and_sanitize p == some p) && (pyLower p == p) && (pyStrip p == p) &&
  decide ((pySplit p).length ≤ 3) && decide (2 ≤ p.length)

theorem goodB_spec {p : Str} (h : goodB p = true) :
    validate_and_sanitize p = some p ∧ pyLower p = p ∧ pyStrip p = p ∧
    (pySplit p).length ≤ 3 ∧ 2 ≤ p.length := by
  simp only [goodB, Bool.and_eq_true, beq_iff_eq, decide_eq_true_eq] at h
  tauto

/-- The seeded phrase lists of every command (including the raw seeds of
the two expanded commands) are validation-stable. -/
theorem seeded_goodB :
    (open_slideshow_phrases ++ close_slideshow_phrases ++ help_phrases ++ stop_phrases ++
     test_phrases ++ noise_phrases ++ popup_on_phrases ++ popup_off_phrases ++
     caption_on_phrases ++ caption_off_phrases ++ change_language_phrases ++
     show_analytics_phrases ++ next_seeds ++ previous_seeds).all goodB = true := by
  decide

/-- No phrase of the two weight-18 commands occurs as a substring of any
phrase of a command with weight at most 8. -/
theorem low_weight_no_substring :
    ∀ p ∈ (help_phrases ++ test_phrases ++ noise_phrases ++ popup_on_phrases ++
        popup_off_phrases ++ caption_on_phrases ++ change_language_phrases ++
        show_analytics_phrases),
      ∀ q ∈ (open_slideshow_phrases ++ close_slideshow_phrases),
        containsSub p q = false := by
  decide

/-- Against a weight-7 phrase as utterance, every weight-18 phrase has
at most 2 matching tokens. -/
theorem w7_token_bound :
    ∀ p ∈ (change_language_phrases ++ show_analytics_phrases),
      ∀ q ∈ (open_slideshow_phrases ++ close_slideshow_phrases),
        ((pySplit q).filter (fun w => decide (w ∈ pySplit p))).length ≤ 2 := by
  decide

/-- A space-free pattern is a prefix of `a ++ ' ' :: b` iff it is a
prefix of `a`. -/
theorem isPrefixOf_append_sep {pat : Str} (hp : ' ' ∉ pat) :
    ∀ (a b : Str), pat.isPrefixOf (a ++ ' ' :: b) = pat.isPrefixOf a := by
  induction pat with
  | nil => intro a b; cases a <;> rfl
  | cons q qs ih =>
    intro a b
    cases a with
    | nil =>
      have hq : ¬(q == ' ') = true := by
        simp only [beq_iff_eq]
        intro h
        exact hp (h ▸ List.mem_cons_self _ _)
      simp only [List.nil_append, List.isPrefixOf]
      rw [Bool.and_eq_false_iff]
      left
      exact Bool.not_eq_true _ ▸ (by simpa using hq)
    | cons c a' =>
      simp only [List.cons_append, List.isPrefixOf, List.append_eq]
      rw [ih (fun hm => hp (List.mem_cons_of_mem _ hm)) a' b]

/-- A nonempty space-free pattern occurs in `a ++ ' ' :: b` iff it
occurs in `a` or in `b`. -/
theorem containsSub_append_sep {k : Str} (hk : ' ' ∉ k) (hknil : k ≠ []) :
    ∀ (a b : Str), containsSub (a ++ ' ' :: b) k = (containsSub a k || containsSub b k) := by
  intro a
  induction a with
  | nil =>
    intro b
    obtain ⟨k0, ks, rfl⟩ := List.exists_cons_of_ne_nil hknil
    have hk0 : (k0 == ' ') = false := by
      simp only [beq_eq_false_iff_ne, ne_eq]
      intro h
      exact hk (h ▸ List.mem_cons_self _ _)
    have h1 : List.isPrefixOf (k0 :: ks) (' ' :: b) = false := by
      simp only [List.isPrefixOf]
      rw [Bool.and_eq_false_iff]
      left
      exact hk0
    simp only [List.nil_append, containsSub, h1, List.isEmpty_cons, Bool.false_or]
  | cons c a' ih =>
    intro b
    simp only [List.cons_append, containsSub, List.append_eq]
    rw [show c :: (a' ++ ' ' :: b) = (c :: a') ++ ' ' :: b from rfl]
    rw [isPrefixOf_append_sep hk (c :: a') b]
    rw [ih b]
    rw [Bool.or_assoc]

/-- `pyReplace` with a nonempty space-free pattern distributes over the
token separator. -/
theorem pyReplace_append_sep {pat rep : Str} (hp : ' ' ∉ pat) (hpnil : pat ≠ []) :
    ∀ (a b : Str), pyReplace pat rep (a ++ ' ' :: b) =
      pyReplace pat rep a ++ ' ' :: pyReplace pat rep b := by
  suffices H : ∀ (n : ℕ) (a b : Str), a.length ≤ n →
      pyReplace pat rep (a ++ ' ' :: b) = pyReplace pat rep a ++ ' ' :: pyReplace pat rep b by
    intro a b
    exact H a.length a b le_rfl
  intro n
  induction n with
  | zero =>
    intro a b ha
    have : a = [] := List.length_eq_zero.mp (Nat.le_zero.mp ha)
    subst this
    simp only [List.nil_append, pyReplace_nil]
    rw [pyReplace_cons]
    have hpre : pat.isPrefixOf (' ' :: b) = false := by
      obtain ⟨k0, ks, rfl⟩ := List.exists_cons_of_ne_nil hpnil
      have hk0 : ¬(k0 == ' ') = true := by
        simp only [beq_iff_eq]
        intro h
        exact hp (h ▸ List.mem_cons_self _ _)
      simp only [List.isPrefixOf]
      rw [Bool.and_eq_false_iff]
      left
      simpa using hk0
    rw [if_neg (by rw [hpre]; simp)]
  | succ n ih =>
    intro a b ha
    cases a with
    | nil =>
      simp only [List.nil_append, pyReplace_nil]
      rw [pyReplace_cons]
      have hpre : pat.isPrefixOf (' ' :: b) = false := by
        obtain ⟨k0, ks, rfl⟩ := List.exists_cons_of_ne_nil hpnil
        have hk0 : ¬(k0 == ' ') = true := by
          simp only [beq_iff_eq]
          intro h
          exact hp (h ▸ List.mem_cons_self _ _)
        simp only [List.isPrefixOf]
        rw [Bool.and_eq_false_iff]
        left
        simpa using hk0
      rw [if_neg (by rw [hpre]; simp)]
    | cons c a' =>
      have ha' : a'.length ≤ n := by simp at ha; omega
      rw [show (c :: a') ++ ' ' :: b = c :: (a' ++ ' ' :: b) from rfl]
      rw [pyReplace_cons, pyReplace_cons]
      rw [show c :: (a' ++ ' ' :: b) = (c :: a') ++ ' ' :: b from rfl]
      rw [isPrefixOf_append_sep hp (c :: a') b]
      by_cases hpre : (pat.isPrefixOf (c :: a') && !pat.isEmpty) = true
      · rw [if_pos hpre, if_pos hpre]
        have hlen : pat.length ≤ a'.length + 1 := by
          have := (List.isPrefixOf_iff_prefix.mp (Bool.and_elim_left hpre)).length_le
          simpa using this
        have hd : (a' ++ ' ' :: b).drop (pat.length - 1) =
            a'.drop (pat.length - 1) ++ ' ' :: b := by
          apply List.drop_append_of_le_length
          omega
        rw [hd]
        rw [ih (a'.drop (pat.length - 1)) b (by have := List.length_drop (pat.length - 1) a'; omega)]
        rw [List.append_assoc]
      · rw [if_neg hpre, if_neg hpre]
        rw [ih a' b ha']
        rfl

/-- `spaceJoin` on a single token. -/
theorem spaceJoin_single (t : Str) : spaceJoin [t] = t := by
  simp [spaceJoin, List.intercalate]

/-- `spaceJoin` on two tokens. -/
theorem spaceJoin_pair (t1 t2 : Str) : spaceJoin [t1, t2] = t1 ++ ' ' :: t2 := by
  simp [spaceJoin, List.intercalate, List.intersperse]

/-- Splitting one whitespace-free nonempty token. -/
theorem pySplit_token {t : Str} (hne : t ≠ []) (hws : ∀ c ∈ t, ¬c.isWhitespace) :
    pySplit t = [t] := by
  obtain ⟨c, cs, rfl⟩ := List.exists_cons_of_ne_nil hne
  rw [pySplit_cons]
  rw [if_neg (hws c (List.mem_cons_self _ _))]
  rw [List.takeWhile_eq_self_iff.mpr
    (fun d hd => by simpa using hws d (List.mem_cons_of_mem _ hd))]
  rw [List.dropWhile_eq_nil_iff.mpr
    (fun d hd => by simpa using hws d (List.mem_cons_of_mem _ hd))]
  rw [pySplit_nil]

/-- `takeWhile`/`dropWhile` through the separator after a
whitespace-free run. -/
theorem takeWhile_append_sep {a : Str} (ha : ∀ c ∈ a, ¬c.isWhitespace) (b : Str) :
    a.takeWhile (fun d => !d.isWhitespace) ++ [] = a ∧
    (a ++ ' ' :: b).takeWhile (fun d => !d.isWhitespace) = a ∧
    (a ++ ' ' :: b).dropWhile (fun d => !d.isWhitespace) = ' ' :: b := by
  refine ⟨by rw [List.append_nil, List.takeWhile_eq_self_iff.mpr
    (fun d hd => by simpa using ha d hd)], ?_, ?_⟩
  · induction a with
    | nil => simp [List.takeWhile]
    | cons c a' ih =>
      rw [List.cons_append]
      rw [List.takeWhile_cons_of_pos (by simpa using ha c (List.mem_cons_self _ _))]
      rw [ih (fun d hd => ha d (List.mem_cons_of_mem _ hd))]
  · induction a with
    | nil => simp [List.dropWhile]
    | cons c a' ih =>
      rw [List.cons_append]
      rw [List.dropWhile_cons_of_pos (by simpa using ha c (List.mem_cons_self _ _))]
      exact ih (fun d hd => ha d (List.mem_cons_of_mem _ hd))

/-- Splitting two whitespace-free nonempty tokens joined by a space. -/
theorem pySplit_pair {t1 t2 : Str} (h1 : t1 ≠ []) (hw1 : ∀ c ∈ t1, ¬c.isWhitespace)
    (h2 : t2 ≠ []) (hw2 : ∀ c ∈ t2, ¬c.isWhitespace) :
    pySplit (t1 ++ ' ' :: t2) = [t1, t2] := by
  obtain ⟨c, cs, rfl⟩ := List.exists_cons_of_ne_nil h1
  rw [List.cons_append, pySplit_cons]
  rw [if_neg (hw1 c (List.mem_cons_self _ _))]
  have hcs : ∀ d ∈ cs, ¬d.isWhitespace := fun d hd => hw1 d (List.mem_cons_of_mem _ hd)
  obtain ⟨-, htake, hdrop⟩ := takeWhile_append_sep hcs t2
  rw [htake, hdrop]
  rw [pySplit_cons]
  rw [if_pos (by decide)]
  rw [pySplit_token h2 hw2]

/-- Stripping is the identity on a string with non-whitespace first and
last characters. -/
theorem pyStrip_eq_self {c : Char} {cs : Str} (hh : ¬c.isWhitespace)
    (hl : ¬((c :: cs).getLast (by simp)).isWhitespace) :
    pyStrip (c :: cs) = c :: cs := by
  have h1 : pyLstrip (c :: cs) = c :: cs := List.dropWhile_cons_of_neg hh
  rw [pyStrip, h1]
  cases hrev : (c :: cs).reverse with
  | nil => exact absurd hrev (by simp)
  | cons d ds =>
    have hd : d = (c :: cs).getLast (by simp) := by
      have h0 := congrArg (fun l => l.head?) hrev
      simp only [List.head?_reverse] at h0
      have h2 := List.getLast?_eq_getLast (c :: cs) (by simp)
      rw [h2] at h0
      exact (Option.some.inj h0).symm
    rw [List.dropWhile_cons_of_neg (hd ▸ hl)]
    rw [← hrev, List.reverse_reverse]

/-- A traversal hit requires a dot. -/
theorem hasTraversal_dot {s : Str} (h : hasTraversal s = true) : '.' ∈ s := by
  induction s with
  | nil => simp [hasTraversal] at h
  | cons c t ih =>
    simp only [hasTraversal, Bool.or_eq_true, Bool.and_eq_true, decide_eq_true_eq] at h
    rcases h with ⟨rfl, -⟩ | h
    · exact List.mem_cons_self _ _
    · exact List.mem_cons_of_mem _ (ih h)

/-- The character repertoire of the generated variants. -/
def alphabetChars : Str := "abcdefghijklmnopqrstuvwxyz0123456789".toList ++ extraLetters

/-- A character usable inside a variant token. -/
def charOKB (c : Char) : Bool := decide (c ∈ alphabetChars)

/-- The word-variant lists feeding the `next`/`previous` expansions. -/
def rawTokens : List Str :=
  variantsForWord ("next".toList) ++ (variantsForWord ("slide".toList) ++
    (variantsForWord ("back".toList) ++ (variantsForWord ("previous".toList) ++
      (variantsForWord ("lanjut".toList) ++ variantsForWord ("mundur".toList)))))

/-- Raw tokens closed under the Javanese token transforms. -/
def javTokens : List Str :=
  rawTokens ++ (rawTokens.map List.dropLast ++
    rawTokens.map (pyReplace ("ng".toList) ("n".toList)))

/-- All token shapes reachable by the regional transform pipeline. -/
def tokenUniverse : List Str :=
  javTokens ++ (javTokens.map (pyReplace ("e".toList) ("i".toList)) ++
    javTokens.map (pyReplace ("o".toList) ("u".toList)))

/-- A token acceptable in a variant phrase. -/
def goodTokB (t : Str) : Bool :=
  decide (2 ≤ t.length) && decide (t.length ≤ 20) && t.all charOKB &&
  dangerous_keywords.all (fun k => !containsSub t k)

/-- Every token in the closed universe is acceptable. -/
theorem tokenUniverse_good : tokenUniverse.all goodTokB = true := by
  set_option maxRecDepth 100000 in decide

/-- Every raw token has at least 3 characters. -/
theorem rawTokens_len3 : rawTokens.all (fun t => decide (3 ≤ t.length)) = true := by decide

/-- Character facts about the variant alphabet. -/
theorem alphabet_facts :
    ∀ c ∈ alphabetChars, ¬c.isWhitespace ∧ c.toLower = c ∧ keepChar c = true ∧
      dangerousChars.contains c = false ∧ c ≠ '.' ∧ c ≠ '<' ∧ c ≠ '>' ∧ c ≠ '-' := by
  decide

/-- Keyword facts: every injection keyword is nonempty and space-free. -/
theorem keyword_facts : ∀ k ∈ dangerous_keywords, k ≠ [] ∧ ' ' ∉ k := by decide

/-- Phrases over a token universe: the join of at most two tokens. -/
def WFov (U : List Str) (x : Str) : Prop :=
  ∃ ts : List Str, x = spaceJoin ts ∧ ts ≠ [] ∧ ts.length ≤ 2 ∧ ∀ t ∈ ts, t ∈ U

theorem WFov_mono {U U' : List Str} (h : ∀ t ∈ U, t ∈ U') {x : Str} (hx : WFov U x) :
    WFov U' x := by
  obtain ⟨ts, rfl, hne, hlen, hmem⟩ := hx
  exact ⟨ts, rfl, hne, hlen, fun t ht => h t (hmem t ht)⟩

theorem raw_subset_jav : ∀ t ∈ rawTokens, t ∈ javTokens :=
  fun t ht => List.mem_append_left _ ht

theorem jav_subset_universe : ∀ t ∈ javTokens, t ∈ tokenUniverse :=
  fun t ht => List.mem_append_left _ ht

/-- Facts about universe tokens in usable form. -/
theorem universe_token_facts {t : Str} (ht : t ∈ tokenUniverse) :
    2 ≤ t.length ∧ t.length ≤ 20 ∧ (∀ c ∈ t, charOKB c = true) ∧
    (∀ k ∈ dangerous_keywords, containsSub t k = false) := by
  have := List.all_eq_true.mp tokenUniverse_good t ht
  simp only [goodTokB, Bool.and_eq_true, decide_eq_true_eq, List.all_eq_true] at this
  refine ⟨this.1.1.1, this.1.1.2, this.1.2, fun k hk => ?_⟩
  have := this.2 k hk
  simpa using this

theorem universe_token_ne_nil {t : Str} (ht : t ∈ tokenUniverse) : t ≠ [] := by
  obtain ⟨h2, -, -, -⟩ := universe_token_facts ht
  intro h
  rw [h] at h2
  simp at h2

theorem universe_token_no_ws {t : Str} (ht : t ∈ tokenUniverse) :
    ∀ c ∈ t, ¬c.isWhitespace := by
  obtain ⟨-, -, hc, -⟩ := universe_token_facts ht
  intro c hcm
  have := hc c hcm
  simp only [charOKB, decide_eq_true_eq] at this
  exact (alphabet_facts c this).1

/-- Membership in an image-building insert fold. -/
theorem mem_foldl_insert_image {β : Type} (f : β → Str) (l : List β) :
    ∀ (acc : List Str) (x : Str),
      x ∈ l.foldl (fun a b => insertIfAbsent a (f b)) acc ↔ x ∈ acc ∨ ∃ b ∈ l, x = f b := by
  induction l with
  | nil => intro acc x; simp
  | cons b t ih =>
    intro acc x
    simp only [List.foldl_cons, ih, mem_insertIfAbsent, List.mem_cons]
    constructor
    · rintro ((hx | rfl) | ⟨b', hb', rfl⟩)
      · exact Or.inl hx
      · exact Or.inr ⟨b, Or.inl rfl, rfl⟩
      · exact Or.inr ⟨b', Or.inr hb', rfl⟩
    · rintro (hx | ⟨b', (rfl | hb'), rfl⟩)
      · exact Or.inl (Or.inl hx)
      · exact Or.inl (Or.inr rfl)
      · exact Or.inr ⟨b', hb', rfl⟩

/-- Membership in the two-token combination fold of `generate_variants`. -/
theorem mem_nested_fold (g : Str → Str → Str) (wv1 wv2 : List Str) :
    ∀ (acc : List Str) (x : Str),
      x ∈ wv1.foldl (fun a v1 => wv2.foldl (fun a2 v2 => insertIfAbsent a2 (g v1 v2)) a) acc ↔
        x ∈ acc ∨ ∃ v1 ∈ wv1, ∃ v2 ∈ wv2, x = g v1 v2 := by
  induction wv1 with
  | nil => intro acc x; simp
  | cons v1 t ih =>
    intro acc x
    simp only [List.foldl_cons, ih, mem_foldl_insert_image, List.mem_cons]
    constructor
    · rintro ((hx | ⟨v2, hv2, rfl⟩) | ⟨v1', hv1', v2, hv2, rfl⟩)
      · exact Or.inl hx
      · exact Or.inr ⟨v1, Or.inl rfl, v2, hv2, rfl⟩
      · exact Or.inr ⟨v1', Or.inr hv1', v2, hv2, rfl⟩
    · rintro (hx | ⟨v1', (rfl | hv1'), v2, hv2, rfl⟩)
      · exact Or.inl (Or.inl hx)
      · exact Or.inl (Or.inr ⟨v2, hv2, rfl⟩)
      · exact Or.inr ⟨v1', hv1', v2, hv2, rfl⟩

/-- Decomposition of a two-token phrase's generated variants. -/
theorem gen_two_mem {p w1 w2 : Str} (hw : pySplit (pyLower p) = [w1, w2]) {vs : List Str}
    (hg : generate_variants p = some vs) {x : Str} (hx : x ∈ vs) :
    x = p ∨ ∃ v1 ∈ variantsForWord w1, ∃ v2 ∈ variantsForWord w2, x = v1 ++ ' ' :: v2 := by
  unfold generate_variants at hg
  rw [hw] at hg
  simp only [List.map] at hg
  injection hg with hg
  subst hg
  have := (mem_nested_fold (fun v1 v2 => v1 ++ ' ' :: v2)
    (variantsForWord w1) (variantsForWord w2) [p] x).mp hx
  rcases this with hx | h
  · exact Or.inl (List.mem_singleton.mp hx)
  · exact Or.inr h

/-- Decomposition of the mixed-region variants into the four transform
stages. -/
theorem regional_mixed_mem {p : Str} {rs : List Str}
    (hr : add_regional_variants p ("mixed".toList) = some rs) {x : Str} (hx : x ∈ rs) :
    ∃ base, generate_variants p = some base ∧
      (x ∈ base ∨ (∃ v ∈ base, x ∈ javaneseOf v) ∨
       (∃ v, (v ∈ base ∨ ∃ u ∈ base, v ∈ javaneseOf u) ∧ x ∈ sundaneseOf v) ∨
       (∃ v, (v ∈ base ∨ (∃ u ∈ base, v ∈ javaneseOf u) ∨
          (∃ u, (u ∈ base ∨ ∃ u' ∈ base, u ∈ javaneseOf u') ∧ v ∈ sundaneseOf u)) ∧
        x = betawiOf v)) := by
  unfold add_regional_variants at hr
  cases hg : generate_variants p with
  | none => rw [hg] at hr; simp at hr
  | some base =>
    rw [hg] at hr
    simp only [Option.map_some'] at hr
    injection hr with hr
    subst hr
    refine ⟨base, rfl, ?_⟩
    simp only [or_true, if_true] at hx
    have hx2 := mem_pyDedup.mp hx
    rcases List.mem_append.mp hx2 with hx3 | hx3
    · rcases List.mem_append.mp hx3 with hx4 | hx4
      · rcases List.mem_append.mp hx4 with hx5 | hx5
        · exact Or.inl hx5
        · obtain ⟨v, hv, hxv⟩ := List.mem_flatMap.mp hx5
          exact Or.inr (Or.inl ⟨v, hv, hxv⟩)
      · obtain ⟨v, hv, hxv⟩ := List.mem_flatMap.mp hx4
        rcases List.mem_append.mp hv with hv2 | hv2
        · exact Or.inr (Or.inr (Or.inl ⟨v, Or.inl hv2, hxv⟩))
        · obtain ⟨u, hu, hvu⟩ := List.mem_flatMap.mp hv2
          exact Or.inr (Or.inr (Or.inl ⟨v, Or.inr ⟨u, hu, hvu⟩, hxv⟩))
    · obtain ⟨v, hv, hxv⟩ := List.mem_map.mp hx3
      refine Or.inr (Or.inr (Or.inr ⟨v, ?_, hxv.symm⟩))
      rcases List.mem_append.mp hv with hv2 | hv2
      · rcases List.mem_append.mp hv2 with hv3 | hv3
        · exact Or.inl hv3
        · obtain ⟨u, hu, hvu⟩ := List.mem_flatMap.mp hv3
          exact Or.inr (Or.inl ⟨u, hu, hvu⟩)
      · obtain ⟨u, hu, hvu⟩ := List.mem_flatMap.mp hv2
        rcases List.mem_append.mp hu with hu2 | hu2
        · exact Or.inr (Or.inr ⟨u, Or.inl hu2, hvu⟩)
        · obtain ⟨u', hu', huu⟩ := List.mem_flatMap.mp hu2
          exact Or.inr (Or.inr ⟨u, Or.inr ⟨u', hu', huu⟩, hvu⟩)

/-- Dropping the last character of a two-token join drops it from the
second token. -/
theorem dropLast_pair {t1 t2 : Str} (h2 : t2 ≠ []) :
    (t1 ++ ' ' :: t2).dropLast = t1 ++ ' ' :: t2.dropLast := by
  obtain ⟨d, ds, rfl⟩ := List.exists_cons_of_ne_nil h2
  rw [List.dropLast_append_cons]
  rfl

/-- The Javanese transforms map raw-token phrases to Javanese-token
phrases. -/
theorem javanese_WF {v y : Str} (hv : WFov rawTokens v) (hy : y ∈ javaneseOf v) :
    WFov javTokens y := by
  obtain ⟨ts, rfl, hne, hlen, hmem⟩ := hv
  unfold javaneseOf at hy
  rcases List.mem_append.mp hy with hy | hy
  · -- the trailing-consonant drop
    have hdrop : y = (spaceJoin ts).dropLast := by
      split at hy
      · split at hy
        · exact List.mem_singleton.mp hy
        · simp at hy
      · simp at hy
    subst hdrop
    cases ts with
    | nil => exact absurd rfl hne
    | cons t rest =>
      cases rest with
      | nil =>
        rw [spaceJoin_single]
        refine ⟨[t.dropLast], (spaceJoin_single _).symm, by simp, by simp, ?_⟩
        intro u hu
        rw [List.mem_singleton.mp hu]
        exact List.mem_append_right _ (List.mem_append_left _
          (List.mem_map_of_mem _ (hmem t (List.mem_cons_self _ _))))
      | cons t2 rest2 =>
        cases rest2 with
        | nil =>
          rw [spaceJoin_pair]
          have ht2 : t2 ∈ rawTokens := hmem t2 (List.mem_cons_of_mem _ (List.mem_cons_self _ _))
          have ht2ne : t2 ≠ [] := by
            have := List.all_eq_true.mp rawTokens_len3 t2 ht2
            simp only [decide_eq_true_eq] at this
            intro h
            rw [h] at this
            simp at this
          rw [dropLast_pair ht2ne]
          refine ⟨[t, t2.dropLast], (spaceJoin_pair _ _).symm, by simp, by simp, ?_⟩
          intro u hu
          rcases List.mem_cons.mp hu with hut | hu2
          · rw [hut]
            exact List.mem_append_left _ (hmem t (List.mem_cons_self _ _))
          · rw [List.mem_singleton.mp hu2]
            exact List.mem_append_right _ (List.mem_append_left _
              (List.mem_map_of_mem _ ht2))
        | cons t3 rest3 => simp at hlen
  · -- the ng → n replacement
    have hng : y = pyReplace ("ng".toList) ("n".toList) (spaceJoin ts) :=
      List.mem_singleton.mp hy
    subst hng
    cases ts with
    | nil => exact absurd rfl hne
    | cons t rest =>
      cases rest with
      | nil =>
        rw [spaceJoin_single]
        refine ⟨[pyReplace ("ng".toList) ("n".toList) t], (spaceJoin_single _).symm,
          by simp, by simp, ?_⟩
        intro u hu
        rw [List.mem_singleton.mp hu]
        exact List.mem_append_right _ (List.mem_append_right _
          (List.mem_map_of_mem _ (hmem t (List.mem_cons_self _ _))))
      | cons t2 rest2 =>
        cases rest2 with
        | nil =>
          rw [spaceJoin_pair]
          rw [pyReplace_append_sep (by decide) (by decide) t t2]
          refine ⟨[pyReplace ("ng".toList) ("n".toList) t,
            pyReplace ("ng".toList) ("n".toList) t2], (spaceJoin_pair _ _).symm,
            by simp, by simp, ?_⟩
          intro u hu
          rcases List.mem_cons.mp hu with rfl | hu2
          · exact List.mem_append_right _ (List.mem_append_right _
              (List.mem_map_of_mem _ (hmem t (List.mem_cons_self _ _))))
          · rw [List.mem_singleton.mp hu2]
            exact List.mem_append_right _ (List.mem_append_right _
              (List.mem_map_of_mem _ (hmem t2 (List.mem_cons_of_mem _ (List.mem_cons_self _ _)))))
        | cons t3 rest3 => simp at hlen

/-- The Sundanese vowel shifts map Javanese-token phrases into the full
universe. -/
theorem sundanese_WF {v y : Str} (hv : WFov javTokens v) (hy : y ∈ sundaneseOf v) :
    WFov tokenUniverse y := by
  obtain ⟨ts, rfl, hne, hlen, hmem⟩ := hv
  unfold sundaneseOf at hy
  have key : ∀ (pat rep : Str), pat = "e".toList ∧ rep = "i".toList ∨
      pat = "o".toList ∧ rep = "u".toList →
      WFov tokenUniverse (pyReplace pat rep (spaceJoin ts)) := by
    intro pat rep hpr
    have hps : ' ' ∉ pat ∧ pat ≠ [] := by
      rcases hpr with ⟨rfl, -⟩ | ⟨rfl, -⟩ <;> exact ⟨by decide, by decide⟩
    have hmem' : ∀ t ∈ ts, pyReplace pat rep t ∈ tokenUniverse := by
      intro t ht
      rcases hpr with ⟨rfl, rfl⟩ | ⟨rfl, rfl⟩
      · exact List.mem_append_right _ (List.mem_append_left _
          (List.mem_map_of_mem _ (hmem t ht)))
      · exact List.mem_append_right _ (List.mem_append_right _
          (List.mem_map_of_mem _ (hmem t ht)))
    cases ts with
    | nil => exact absurd rfl hne
    | cons t rest =>
      cases rest with
      | nil =>
        rw [spaceJoin_single]
        exact ⟨[pyReplace pat rep t], (spaceJoin_single _).symm, by simp, by simp,
          fun u hu => (List.mem_singleton.mp hu) ▸ hmem' t (List.mem_cons_self _ _)⟩
      | cons t2 rest2 =>
        cases rest2 with
        | nil =>
          rw [spaceJoin_pair]
          rw [pyReplace_append_sep hps.1 hps.2 t t2]
          refine ⟨[pyReplace pat rep t, pyReplace pat rep t2], (spaceJoin_pair _ _).symm,
            by simp, by simp, ?_⟩
          intro u hu
          rcases List.mem_cons.mp hu with rfl | hu2
          · exact hmem' t (List.mem_cons_self _ _)
          · rw [List.mem_singleton.mp hu2]
            exact hmem' t2 (List.mem_cons_of_mem _ (List.mem_cons_self _ _))
        | cons t3 rest3 => simp at hlen
  rcases List.mem_cons.mp hy with rfl | hy2
  · exact key _ _ (Or.inl ⟨rfl, rfl⟩)
  · rw [List.mem_singleton.mp hy2]
    exact key _ _ (Or.inr ⟨rfl, rfl⟩)

/-- The Betawi token filter yields the empty string or a universe
phrase. -/
theorem betawi_WF {v : Str} (hv : WFov tokenUniverse v) :
    betawiOf v = [] ∨ WFov tokenUniverse (betawiOf v) := by
  obtain ⟨ts, rfl, hne, hlen, hmem⟩ := hv
  have hsplit : pySplit (spaceJoin ts) = ts := by
    cases ts with
    | nil => exact absurd rfl hne
    | cons t rest =>
      cases rest with
      | nil =>
        rw [spaceJoin_single]
        exact pySplit_token (universe_token_ne_nil (hmem t (List.mem_cons_self _ _)))
          (universe_token_no_ws (hmem t (List.mem_cons_self _ _)))
      | cons t2 rest2 =>
        cases rest2 with
        | nil =>
          rw [spaceJoin_pair]
          exact pySplit_pair (universe_token_ne_nil (hmem t (List.mem_cons_self _ _)))
            (universe_token_no_ws (hmem t (List.mem_cons_self _ _)))
            (universe_token_ne_nil (hmem t2 (List.mem_cons_of_mem _ (List.mem_cons_self _ _))))
            (universe_token_no_ws (hmem t2 (List.mem_cons_of_mem _ (List.mem_cons_self _ _))))
        | cons t3 rest3 => simp at hlen
  unfold betawiOf
  rw [hsplit]
  cases hf : ts.filter (fun w => decide (w.length > 2)) with
  | nil => exact Or.inl rfl
  | cons u us =>
    refine Or.inr ⟨u :: us, rfl, by simp, ?_, ?_⟩
    · rw [← hf]
      exact le_trans (List.length_filter_le _ _) hlen
    · intro t ht
      rw [← hf] at ht
      exact hmem t (List.mem_of_mem_filter ht)

/-- A map that fixes every element of a list is the identity on it. -/
theorem map_id_of {α : Type} {f : α → α} : ∀ {l : List α}, (∀ c ∈ l, f c = c) → l.map f = l := by
  intro l
  induction l with
  | nil => intro _; rfl
  | cons c t ih =>
    intro h
    simp only [List.map_cons]
    rw [h c (List.mem_cons_self _ _), ih (fun d hd => h d (List.mem_cons_of_mem _ hd))]

/-- If a cons pattern occurs in a haystack, its head character does. -/
theorem containsSub_head {d : Char} {p : Str} :
    ∀ {hay : Str}, containsSub hay (d :: p) = true → d ∈ hay := by
  intro hay
  induction hay with
  | nil => intro h; simp [containsSub] at h
  | cons c t ih =>
    intro h
    simp only [containsSub, Bool.or_eq_true] at h
    rcases h with h | h
    · simp only [List.isPrefixOf, Bool.and_eq_true, beq_iff_eq] at h
      rw [h.1]
      exact List.mem_cons_self _ _
    · exact List.mem_cons_of_mem _ (ih h)

/-- `getLast` of an append ending in a cons. -/
theorem getLast_append_cons (l : Str) (c : Char) (m : Str) (h : l ++ c :: m ≠ []) :
    (l ++ c :: m).getLast h = (c :: m).getLast (by simp) := by
  have hq : (l ++ c :: m).getLast? = (c :: m).getLast? :=
    List.getLast?_append_of_ne_nil l (by simp)
  rw [List.getLast?_eq_getLast _ h, List.getLast?_eq_getLast _ (by simp)] at hq
  exact Option.some.inj hq

/-- Splitting inverts joining for at most two clean tokens. -/
theorem spaceJoin_split {ts : List Str} (hne : ts ≠ []) (hlen : ts.length ≤ 2)
    (hts : ∀ t ∈ ts, t ≠ [] ∧ ∀ c ∈ t, ¬c.isWhitespace) :
    pySplit (spaceJoin ts) = ts := by
  cases ts with
  | nil => exact absurd rfl hne
  | cons t rest =>
    cases rest with
    | nil =>
      rw [spaceJoin_single]
      exact pySplit_token (hts t (List.mem_cons_self _ _)).1 (hts t (List.mem_cons_self _ _)).2
    | cons t2 rest2 =>
      cases rest2 with
      | nil =>
        rw [spaceJoin_pair]
        exact pySplit_pair (hts t (List.mem_cons_self _ _)).1
          (hts t (List.mem_cons_self _ _)).2
          (hts t2 (List.mem_cons_of_mem _ (List.mem_cons_self _ _))).1
          (hts t2 (List.mem_cons_of_mem _ (List.mem_cons_self _ _))).2
      | cons t3 rest3 => simp at hlen

/-- Every character of a universe phrase is the separator or an alphabet
character. -/
theorem WF_chars {x : Str} (hx : WFov tokenUniverse x) :
    ∀ c ∈ x, c = ' ' ∨ c ∈ alphabetChars := by
  obtain ⟨ts, rfl, hne, hlen, hmem⟩ := hx
  have tok : ∀ t ∈ ts, ∀ c ∈ t, c ∈ alphabetChars := by
    intro t ht c hc
    have := (universe_token_facts (hmem t ht)).2.2.1 c hc
    simpa [charOKB] using this
  cases ts with
  | nil => exact absurd rfl hne
  | cons t rest =>
    cases rest with
    | nil =>
      rw [spaceJoin_single]
      exact fun c hc => Or.inr (tok t (List.mem_cons_self _ _) c hc)
    | cons t2 rest2 =>
      cases rest2 with
      | nil =>
        rw [spaceJoin_pair]
        intro c hc
        rcases List.mem_append.mp hc with hc | hc
        · exact Or.inr (tok t (List.mem_cons_self _ _) c hc)
        · rcases List.mem_cons.mp hc with rfl | hc
          · exact Or.inl rfl
          · exact Or.inr (tok t2 (List.mem_cons_of_mem _ (List.mem_cons_self _ _)) c hc)
      | cons t3 rest3 => simp at hlen

/-- Universe phrases are lowercase fixed points. -/
theorem WF_pyLower {x : Str} (hx : WFov tokenUniverse x) : pyLower x = x := by
  apply map_id_of
  intro c hc
  rcases WF_chars hx c hc with rfl | hca
  · decide
  · exact (alphabet_facts c hca).2.1

/-- Universe phrases are strip fixed points. -/
theorem WF_pyStrip {x : Str} (hx : WFov tokenUniverse x) : pyStrip x = x := by
  obtain ⟨ts, rfl, hne, hlen, hmem⟩ := hx
  cases ts with
  | nil => exact absurd rfl hne
  | cons t rest =>
    have ht := hmem t (List.mem_cons_self _ _)
    obtain ⟨d, ds, rfl⟩ := List.exists_cons_of_ne_nil (universe_token_ne_nil ht)
    cases rest with
    | nil =>
      rw [spaceJoin_single]
      exact pyStrip_eq_self (universe_token_no_ws ht d (List.mem_cons_self _ _))
        (universe_token_no_ws ht _ (List.getLast_mem _))
    | cons t2 rest2 =>
      cases rest2 with
      | nil =>
        rw [spaceJoin_pair]
        have ht2 := hmem t2 (List.mem_cons_of_mem _ (List.mem_cons_self _ _))
        obtain ⟨e, es, rfl⟩ := List.exists_cons_of_ne_nil (universe_token_ne_nil ht2)
        rw [show (d :: ds) ++ ' ' :: e :: es = d :: (ds ++ ' ' :: e :: es) from rfl]
        apply pyStrip_eq_self (universe_token_no_ws ht d (List.mem_cons_self _ _))
        have heq : d :: (ds ++ ' ' :: e :: es) = (d :: ds ++ [' ']) ++ e :: es := by simp
        have hL : (d :: (ds ++ ' ' :: e :: es)).getLast (by simp) =
            (e :: es).getLast (by simp) := by
          have hq : (d :: (ds ++ ' ' :: e :: es)).getLast? = (e :: es).getLast? := by
            rw [heq]
            exact List.getLast?_append_of_ne_nil _ (by simp)
          rw [List.getLast?_eq_getLast _ (by simp), List.getLast?_eq_getLast _ (by simp)] at hq
          exact Option.some.inj hq
        rw [hL]
        exact universe_token_no_ws ht2 _ (List.getLast_mem _)
      | cons t3 rest3 => simp at hlen

/-- Universe phrases have length between 2 and 41. -/
theorem WF_length {x : Str} (hx : WFov tokenUniverse x) :
    2 ≤ x.length ∧ x.length ≤ 200 := by
  obtain ⟨ts, rfl, hne, hlen, hmem⟩ := hx
  cases ts with
  | nil => exact absurd rfl hne
  | cons t rest =>
    have h1 := universe_token_facts (hmem t (List.mem_cons_self _ _))
    cases rest with
    | nil =>
      rw [spaceJoin_single]
      exact ⟨h1.1, le_trans h1.2.1 (by norm_num)⟩
    | cons t2 rest2 =>
      cases rest2 with
      | nil =>
        have h2 := universe_token_facts (hmem t2 (List.mem_cons_of_mem _ (List.mem_cons_self _ _)))
        rw [spaceJoin_pair]
        simp only [List.length_append, List.length_cons]
        omega
      | cons t3 rest3 => simp at hlen

/-- Universe phrases split back into their tokens. -/
theorem WF_split {x : Str} (hx : WFov tokenUniverse x) :
    spaceJoin (pySplit x) = x ∧ (pySplit x).length ≤ 2 := by
  obtain ⟨ts, rfl, hne, hlen, hmem⟩ := hx
  have hsp : pySplit (spaceJoin ts) = ts :=
    spaceJoin_split hne hlen (fun t ht =>
      ⟨universe_token_ne_nil (hmem t ht), universe_token_no_ws (hmem t ht)⟩)
  rw [hsp]
  exact ⟨rfl, hlen⟩

/-- No configured pattern occurs in a universe phrase when it occurs in
no universe token. -/
theorem WF_no_keyword {x : Str} (hx : WFov tokenUniverse x) {k : Str} (hknil : k ≠ [])
    (hkws : ' ' ∉ k) (hk : ∀ t ∈ tokenUniverse, containsSub t k = false) :
    containsSub x k = false := by
  obtain ⟨ts, rfl, hne, hlen, hmem⟩ := hx
  cases ts with
  | nil => exact absurd rfl hne
  | cons t rest =>
    cases rest with
    | nil =>
      rw [spaceJoin_single]
      exact hk t (hmem t (List.mem_cons_self _ _))
    | cons t2 rest2 =>
      cases rest2 with
      | nil =>
        rw [spaceJoin_pair, containsSub_append_sep hkws hknil,
          hk t (hmem t (List.mem_cons_self _ _)),
          hk t2 (hmem t2 (List.mem_cons_of_mem _ (List.mem_cons_self _ _)))]
        rfl
      | cons t3 rest3 => simp at hlen

/-- Universe phrases pass the full validator unchanged. -/
theorem WF_validate {x : Str} (hx : WFov tokenUniverse x) :
    validate_and_sanitize x = some x := by
  have hchars := WF_chars hx
  have hlow : pyLower x = x := WF_pyLower hx
  have hstrip : pyStrip x = x := WF_pyStrip hx
  obtain ⟨hlen2, hlenhi⟩ := WF_length hx
  obtain ⟨hjoin, -⟩ := WF_split hx
  have hne : x ≠ [] := by
    intro h
    rw [h] at hlen2
    simp at hlen2
  have hkeep : x.filter keepChar = x := by
    apply List.filter_eq_self.mpr
    intro c hc
    rcases hchars c hc with rfl | hca
    · decide
    · exact (alphabet_facts c hca).2.2.1
  have hinj : check_injection_attempt x = false := by
    rw [check_injection_attempt, hlow]
    apply Bool.eq_false_iff.mpr
    intro hany
    rw [List.any_eq_true] at hany
    obtain ⟨k, hk, hck⟩ := hany
    have hkf := keyword_facts k hk
    have hkc := WF_no_keyword hx hkf.1 hkf.2
      (fun t ht => (universe_token_facts ht).2.2.2 k hk)
    rw [hkc] at hck
    exact absurd hck (by simp)
  have hdang : is_dangerous x = false := by
    rw [is_dangerous]
    rw [Bool.or_eq_false_iff, Bool.or_eq_false_iff, Bool.or_eq_false_iff]
    refine ⟨⟨⟨?_, ?_⟩, ?_⟩, ?_⟩
    · apply Bool.eq_false_iff.mpr
      intro hany
      rw [List.any_eq_true] at hany
      obtain ⟨c, hcx, hdc⟩ := hany
      rcases hchars c hcx with rfl | hca
      · exact absurd hdc (by decide)
      · rw [(alphabet_facts c hca).2.2.2.1] at hdc
        exact absurd hdc (by simp)
    · apply Bool.eq_false_iff.mpr
      intro h
      have hdot := hasTraversal_dot h
      rcases hchars '.' hdot with h' | hca
      · exact absurd h' (by decide)
      · exact absurd rfl (alphabet_facts '.' hca).2.2.2.2.1
    · apply Bool.eq_false_iff.mpr
      intro hany
      rw [List.any_eq_true] at hany
      obtain ⟨c, hcx, hdc⟩ := hany
      simp only [Bool.or_eq_true, decide_eq_true_eq] at hdc
      rcases hdc with rfl | rfl
      · rcases hchars '<' hcx with h' | hca
        · exact absurd h' (by decide)
        · exact absurd rfl (alphabet_facts '<' hca).2.2.2.2.2.1
      · rcases hchars '>' hcx with h' | hca
        · exact absurd h' (by decide)
        · exact absurd rfl (alphabet_facts '>' hca).2.2.2.2.2.2.1
    · apply Bool.eq_false_iff.mpr
      intro h
      have hdd : containsSub x ('-' :: ['-']) = true := h
      have hmemd := containsSub_head hdd
      rcases hchars '-' hmemd with h' | hca
      · exact absurd h' (by decide)
      · exact absurd rfl (alphabet_facts '-' hca).2.2.2.2.2.2.2
  have hsan : sanitize_voice_input x = x := by
    rw [sanitize_voice_input, if_neg hne]
    simp only []
    rw [hlow, hstrip, hjoin, hkeep]
  rw [validate_and_sanitize, if_neg hne,
    if_neg (show ¬(check_injection_attempt x = true) by rw [hinj]; simp),
    if_neg (show ¬(is_dangerous x = true) by rw [hdang]; simp)]
  simp only []
  rw [hsan]
  rw [if_neg (by push_neg; exact ⟨hne, by omega⟩), if_neg (by omega)]

/-- Universe phrases are validation stable. -/
theorem WF_good {x : Str} (hx : WFov tokenUniverse x) : goodB x = true := by
  obtain ⟨hlen2, -⟩ := WF_length hx
  obtain ⟨-, hslen⟩ := WF_split hx
  simp only [goodB, Bool.and_eq_true, beq_iff_eq, decide_eq_true_eq]
  exact ⟨⟨⟨⟨WF_validate hx, WF_pyLower hx⟩, WF_pyStrip hx⟩, le_trans hslen (by norm_num)⟩, hlen2⟩

/-- The seed phrases of the expanded commands each have exactly two
tokens, are lowercase clean joins, and draw all their word variants from
the raw token pool. -/
theorem seed_token_sub : ∀ p ∈ next_seeds ++ previous_seeds,
    (pySplit (pyLower p)).length = 2 ∧ pyLower p = p ∧
    spaceJoin (pySplit p) = p ∧
    ∀ w ∈ pySplit (pyLower p), w ∈ rawTokens ∧ ∀ v ∈ variantsForWord w, v ∈ rawTokens := by
  set_option maxRecDepth 10000 in decide

/-- Generated variants of the expanded seeds stay in the raw pool. -/
theorem seed_gen_WF {p : Str} (hp : p ∈ next_seeds ++ previous_seeds) {vs : List Str}
    (hg : generate_variants p = some vs) : ∀ x ∈ vs, WFov rawTokens x := by
  obtain ⟨hlen, hlow, hjoin, htok⟩ := seed_token_sub p hp
  intro x hx
  cases hsp : pySplit (pyLower p) with
  | nil => rw [hsp] at hlen; simp at hlen
  | cons w1 rest =>
    cases rest with
    | nil => rw [hsp] at hlen; simp at hlen
    | cons w2 rest2 =>
      cases rest2 with
      | cons w3 rest3 => rw [hsp] at hlen; simp at hlen
      | nil =>
        have hw1 := htok w1 (by rw [hsp]; exact List.mem_cons_self _ _)
        have hw2 := htok w2 (by rw [hsp]; exact List.mem_cons_of_mem _ (List.mem_cons_self _ _))
        have hsp2 : pySplit p = [w1, w2] := by rw [← hlow]; exact hsp
        rcases gen_two_mem hsp hg hx with hxp | ⟨v1, hv1, v2, hv2, hxv⟩
        · subst hxp
          refine ⟨[w1, w2], (hsp2 ▸ hjoin).symm, by simp, by simp, ?_⟩
          intro t ht
          rcases List.mem_cons.mp ht with htw | ht2
          · rw [htw]; exact hw1.1
          · rw [List.mem_singleton.mp ht2]; exact hw2.1
        · subst hxv
          refine ⟨[v1, v2], (spaceJoin_pair _ _).symm, by simp, by simp, ?_⟩
          intro t ht
          rcases List.mem_cons.mp ht with htw | ht2
          · rw [htw]; exact hw1.2 v1 hv1
          · rw [List.mem_singleton.mp ht2]; exact hw2.2 v2 hv2

/-- Regional variants of the expanded seeds are empty or universe
phrases. -/
theorem seed_regional_WF {p : Str} (hp : p ∈ next_seeds ++ previous_seeds) {rs : List Str}
    (hr : add_regional_variants p ("mixed".toList) = some rs) :
    ∀ x ∈ rs, x = [] ∨ WFov tokenUniverse x := by
  intro x hx
  obtain ⟨base, hg, hcase⟩ := regional_mixed_mem hr hx
  have hbase : ∀ v ∈ base, WFov rawTokens v := seed_gen_WF hp hg
  have hbaseJ : ∀ v ∈ base, WFov javTokens v :=
    fun v hv => WFov_mono raw_subset_jav (hbase v hv)
  have hbaseU : ∀ v ∈ base, WFov tokenUniverse v :=
    fun v hv => WFov_mono jav_subset_universe (hbaseJ v hv)
  rcases hcase with hx2 | ⟨v, hv, hxv⟩ | ⟨v, hv, hxv⟩ | ⟨v, hv, hxe⟩
  · exact Or.inr (hbaseU x hx2)
  · exact Or.inr (WFov_mono jav_subset_universe (javanese_WF (hbase v hv) hxv))
  · have hvJ : WFov javTokens v := by
      rcases hv with hv | ⟨u, hu, hvu⟩
      · exact hbaseJ v hv
      · exact javanese_WF (hbase u hu) hvu
    exact Or.inr (sundanese_WF hvJ hxv)
  · have hvU : WFov tokenUniverse v := by
      rcases hv with hv | ⟨u, hu, hvu⟩ | ⟨u, hu2, hvu⟩
      · exact hbaseU v hv
      · exact WFov_mono jav_subset_universe (javanese_WF (hbase u hu) hvu)
      · have huJ : WFov javTokens u := by
          rcases hu2 with hu2 | ⟨u', hu', huu⟩
          · exact hbaseJ u hu2
          · exact javanese_WF (hbase u' hu') huu
        exact sundanese_WF huJ hvu
    subst hxe
    exact betawi_WF hvU

/-- The phrase lists of the catalog, in order. -/
theorem wake_words_phrases : wake_words.map CommandEntry.phrases =
    [(expand_with_variants next_seeds).getD [], (expand_with_variants previous_seeds).getD [],
     open_slideshow_phrases, close_slideshow_phrases, help_phrases, stop_phrases,
     test_phrases, noise_phrases, popup_on_phrases, popup_off_phrases,
     caption_on_phrases, caption_off_phrases, change_language_phrases,
     show_analytics_phrases] := by
  simp only [wake_words, List.map_cons, List.map_nil]

/-- Every phrase scanned by the catalog is validation stable. -/
theorem catalog_phrases_good : ∀ e ∈ wake_words, ∀ p ∈ e.phrases, goodB p = true := by
  have hseed : ∀ p ∈ (open_slideshow_phrases ++ close_slideshow_phrases ++ help_phrases ++
      stop_phrases ++ test_phrases ++ noise_phrases ++ popup_on_phrases ++ popup_off_phrases ++
      caption_on_phrases ++ caption_off_phrases ++ change_language_phrases ++
      show_analytics_phrases ++ next_seeds ++ previous_seeds), goodB p = true :=
    fun p hp => List.all_eq_true.mp seeded_goodB p hp
  have hexp : ∀ (seeds : List Str), seeds = next_seeds ∨ seeds = previous_seeds →
      ∀ p ∈ (expand_with_variants seeds).getD [], goodB p = true := by
    intro seeds hseeds p hp
    have hsome : (expand_with_variants seeds).isSome := by
      rcases hseeds with rfl | rfl
      · exact expand_next_isSome
      · exact expand_previous_isSome
    obtain ⟨res, hres⟩ := Option.isSome_iff_exists.mp hsome
    rw [hres, Option.getD_some] at hp
    rcases (mem_expand_with_variants hres p).mp hp with hp2 | ⟨q, hq, hlen2, hv⟩
    · apply hseed
      simp only [List.mem_append]
      rcases hseeds with rfl | rfl
      · exact Or.inl (Or.inr hp2)
      · exact Or.inr hp2
    · have hq' : q ∈ next_seeds ++ previous_seeds := by
        rcases hseeds with rfl | rfl
        · exact List.mem_append_left _ hq
        · exact List.mem_append_right _ hq
      have hWF : p = [] ∨ WFov tokenUniverse p := by
        rcases hv with ⟨vs, hg, hpv⟩ | ⟨rs, hr, hpr⟩
        · exact Or.inr (WFov_mono
            (fun t ht => jav_subset_universe t (raw_subset_jav t ht))
            (seed_gen_WF hq' hg p hpv))
        · exact seed_regional_WF hq' hr p hpr
      rcases hWF with hpnil | hWF
      · rw [hpnil] at hlen2; simp at hlen2
      · exact WF_good hWF
  intro e he p hp
  have hmap : e.phrases ∈ wake_words.map CommandEntry.phrases := List.mem_map_of_mem _ he
  rw [wake_words_phrases] at hmap
  simp only [List.mem_cons, List.not_mem_nil, or_false] at hmap
  rcases hmap with h | h | h | h | h | h | h | h | h | h | h | h | h | h
  · rw [h] at hp
    exact hexp next_seeds (Or.inl rfl) p hp
  · rw [h] at hp
    exact hexp previous_seeds (Or.inr rfl) p hp
  · rw [h] at hp
    refine hseed p ?_
    simp only [List.mem_append]
    exact Or.inl (Or.inl (Or.inl (Or.inl (Or.inl (Or.inl (Or.inl (Or.inl (Or.inl (Or.inl
      (Or.inl (Or.inl (Or.inl hp))))))))))))
  · rw [h] at hp
    refine hseed p ?_
    simp only [List.mem_append]
    exact Or.inl (Or.inl (Or.inl (Or.inl (Or.inl (Or.inl (Or.inl (Or.inl (Or.inl (Or.inl
      (Or.inl (Or.inl (Or.inr hp))))))))))))
  · rw [h] at hp
    refine hseed p ?_
    simp only [List.mem_append]
    exact Or.inl (Or.inl (Or.inl (Or.inl (Or.inl (Or.inl (Or.inl (Or.inl (Or.inl (Or.inl
      (Or.inl (Or.inr hp)))))))))))
  · rw [h] at hp
    refine hseed p ?_
    simp only [List.mem_append]
    exact Or.inl (Or.inl (Or.inl (Or.inl (Or.inl (Or.inl (Or.inl (Or.inl (Or.inl (Or.inl
      (Or.inr hp))))))))))
  · rw [h] at hp
    refine hseed p ?_
    simp only [List.mem_append]
    exact Or.inl (Or.inl (Or.inl (Or.inl (Or.inl (Or.inl (Or.inl (Or.inl (Or.inl
      (Or.inr hp)))))))))
  · rw [h] at hp
    refine hseed p ?_
    simp only [List.mem_append]
    exact Or.inl (Or.inl (Or.inl (Or.inl (Or.inl (Or.inl (Or.inl (Or.inl (Or.inr hp))))))))
  · rw [h] at hp
    refine hseed p ?_
    simp only [List.mem_append]
    exact Or.inl (Or.inl (Or.inl (Or.inl (Or.inl (Or.inl (Or.inl (Or.inr hp)))))))
  · rw [h] at hp
    refine hseed p ?_
    simp only [List.mem_append]
    exact Or.inl (Or.inl (Or.inl (Or.inl (Or.inl (Or.inl (Or.inr hp))))))
  · rw [h] at hp
    refine hseed p ?_
    simp only [List.mem_append]
    exact Or.inl (Or.inl (Or.inl (Or.inl (Or.inl (Or.inr hp)))))
  · rw [h] at hp
    refine hseed p ?_
    simp only [List.mem_append]
    exact Or.inl (Or.inl (Or.inl (Or.inl (Or.inr hp))))
  · rw [h] at hp
    refine hseed p ?_
    simp only [List.mem_append]
    exact Or.inl (Or.inl (Or.inl (Or.inr hp)))
  · rw [h] at hp
    refine hseed p ?_
    simp only [List.mem_append]
    exact Or.inl (Or.inl (Or.inr hp))

/-- Weight/phrase-list table of the catalog. -/
def wwPairs : List (ℚ × List Str) :=
  [(10, (expand_with_variants next_seeds).getD []),
   (10, (expand_with_variants previous_seeds).getD []),
   (18, open_slideshow_phrases), (18, close_slideshow_phrases),
   (8, help_phrases), (15, stop_phrases), (8, test_phrases), (8, noise_phrases),
   (8, popup_on_phrases), (8, popup_off_phrases), (8, caption_on_phrases),
   (12, caption_off_phrases), (7, change_language_phrases),
   (7, show_analytics_phrases)]

/-- Every catalog entry's weight/phrases pair is in the table. -/
theorem wake_words_pairs : ∀ e ∈ wake_words, (e.weight, e.phrases) ∈ wwPairs := by
  intro e he
  have h := List.mem_map_of_mem (fun e => (e.weight, e.phrases)) he
  have hmap : wake_words.map (fun e => (e.weight, e.phrases)) = wwPairs := by
    simp only [wake_words, List.map_cons, List.map_nil, wwPairs]
  rw [hmap] at h
  exact h

/-- Weight-18 entries scan only the two slideshow phrase lists; all
other entries have weight at most 15. -/
theorem wake_words_A : ∀ e ∈ wake_words,
    (e.weight = 18 ∧ ∀ q ∈ e.phrases, q ∈ open_slideshow_phrases ++ close_slideshow_phrases) ∨
    e.weight ≤ 15 := by
  intro e he
  have h := wake_words_pairs e he
  simp only [wwPairs, List.mem_cons, List.not_mem_nil, or_false, Prod.mk.injEq] at h
  rcases h with ⟨hw, hp⟩ | ⟨hw, hp⟩ | ⟨hw, hp⟩ | ⟨hw, hp⟩ | ⟨hw, hp⟩ | ⟨hw, hp⟩ | ⟨hw, hp⟩ |
    ⟨hw, hp⟩ | ⟨hw, hp⟩ | ⟨hw, hp⟩ | ⟨hw, hp⟩ | ⟨hw, hp⟩ | ⟨hw, hp⟩ | ⟨hw, hp⟩
  · right; rw [hw]; norm_num
  · right; rw [hw]; norm_num
  · left
    refine ⟨hw, fun q hq => ?_⟩
    rw [hp] at hq
    exact List.mem_append_left _ hq
  · left
    refine ⟨hw, fun q hq => ?_⟩
    rw [hp] at hq
    exact List.mem_append_right _ hq
  · right; rw [hw]; norm_num
  · right; rw [hw]
  · right; rw [hw]; norm_num
  · right; rw [hw]; norm_num
  · right; rw [hw]; norm_num
  · right; rw [hw]; norm_num
  · right; rw [hw]; norm_num
  · right; rw [hw]; norm_num
  · right; rw [hw]; norm_num
  · right; rw [hw]; norm_num

/-- Catalog weight structure: weights lie in `[7, 18]`, weight 7 or at
least 8, and the low-weight entries scan only the listed seeded
lists. -/
theorem wake_words_B : ∀ e ∈ wake_words,
    7 ≤ e.weight ∧ e.weight ≤ 18 ∧ (e.weight = 7 ∨ 8 ≤ e.weight) ∧
    (e.weight ≤ 8 → ∀ q ∈ e.phrases,
      q ∈ help_phrases ++ test_phrases ++ noise_phrases ++ popup_on_phrases ++
        popup_off_phrases ++ caption_on_phrases ++ change_language_phrases ++
        show_analytics_phrases) ∧
    (e.weight = 7 → ∀ q ∈ e.phrases,
      q ∈ change_language_phrases ++ show_analytics_phrases) := by
  intro e he
  have h := wake_words_pairs e he
  simp only [wwPairs, List.mem_cons, List.not_mem_nil, or_false, Prod.mk.injEq] at h
  rcases h with ⟨hw, hp⟩ | ⟨hw, hp⟩ | ⟨hw, hp⟩ | ⟨hw, hp⟩ | ⟨hw, hp⟩ | ⟨hw, hp⟩ | ⟨hw, hp⟩ |
    ⟨hw, hp⟩ | ⟨hw, hp⟩ | ⟨hw, hp⟩ | ⟨hw, hp⟩ | ⟨hw, hp⟩ | ⟨hw, hp⟩ | ⟨hw, hp⟩
  · refine ⟨by rw [hw]; norm_num, by rw [hw]; norm_num, Or.inr (by rw [hw]; norm_num), ?_, ?_⟩
    · intro hle; rw [hw] at hle; norm_num at hle
    · intro h7; rw [hw] at h7; norm_num at h7
  · refine ⟨by rw [hw]; norm_num, by rw [hw]; norm_num, Or.inr (by rw [hw]; norm_num), ?_, ?_⟩
    · intro hle; rw [hw] at hle; norm_num at hle
    · intro h7; rw [hw] at h7; norm_num at h7
  · refine ⟨by rw [hw]; norm_num, by rw [hw], Or.inr (by rw [hw]; norm_num), ?_, ?_⟩
    · intro hle; rw [hw] at hle; norm_num at hle
    · intro h7; rw [hw] at h7; norm_num at h7
  · refine ⟨by rw [hw]; norm_num, by rw [hw], Or.inr (by rw [hw]; norm_num), ?_, ?_⟩
    · intro hle; rw [hw] at hle; norm_num at hle
    · intro h7; rw [hw] at h7; norm_num at h7
  · refine ⟨by rw [hw]; norm_num, by rw [hw]; norm_num, Or.inr (by rw [hw]), ?_, ?_⟩
    · intro _ q hq
      rw [hp] at hq
      simp only [List.mem_append]
      exact Or.inl (Or.inl (Or.inl (Or.inl (Or.inl (Or.inl (Or.inl hq))))))
    · intro h7; rw [hw] at h7; norm_num at h7
  · refine ⟨by rw [hw]; norm_num, by rw [hw]; norm_num, Or.inr (by rw [hw]; norm_num), ?_, ?_⟩
    · intro hle; rw [hw] at hle; norm_num at hle
    · intro h7; rw [hw] at h7; norm_num at h7
  · refine ⟨by rw [hw]; norm_num, by rw [hw]; norm_num, Or.inr (by rw [hw]), ?_, ?_⟩
    · intro _ q hq
      rw [hp] at hq
      simp only [List.mem_append]
      exact Or.inl (Or.inl (Or.inl (Or.inl (Or.inl (Or.inl (Or.inr hq))))))
    · intro h7; rw [hw] at h7; norm_num at h7
  · refine ⟨by rw [hw]; norm_num, by rw [hw]; norm_num, Or.inr (by rw [hw]), ?_, ?_⟩
    · intro _ q hq
      rw [hp] at hq
      simp only [List.mem_append]
      exact Or.inl (Or.inl (Or.inl (Or.inl (Or.inl (Or.inr hq)))))
    · intro h7; rw [hw] at h7; norm_num at h7
  · refine ⟨by rw [hw]; norm_num, by rw [hw]; norm_num, Or.inr (by rw [hw]), ?_, ?_⟩
    · intro _ q hq
      rw [hp] at hq
      simp only [List.mem_append]
      exact Or.inl (Or.inl (Or.inl (Or.inl (Or.inr hq))))
    · intro h7; rw [hw] at h7; norm_num at h7
  · refine ⟨by rw [hw]; norm_num, by rw [hw]; norm_num, Or.inr (by rw [hw]), ?_, ?_⟩
    · intro _ q hq
      rw [hp] at hq
      simp only [List.mem_append]
      exact Or.inl (Or.inl (Or.inl (Or.inr hq)))
    · intro h7; rw [hw] at h7; norm_num at h7
  · refine ⟨by rw [hw]; norm_num, by rw [hw]; norm_num, Or.inr (by rw [hw]), ?_, ?_⟩
    · intro _ q hq
      rw [hp] at hq
      simp only [List.mem_append]
      exact Or.inl (Or.inl (Or.inr hq))
    · intro h7; rw [hw] at h7; norm_num at h7
  · refine ⟨by rw [hw]; norm_num, by rw [hw]; norm_num, Or.inr (by rw [hw]; norm_num), ?_, ?_⟩
    · intro hle; rw [hw] at hle; norm_num at hle
    · intro h7; rw [hw] at h7; norm_num at h7
  · refine ⟨by rw [hw], by rw [hw]; norm_num, Or.inl hw, ?_, ?_⟩
    · intro _ q hq
      rw [hp] at hq
      simp only [List.mem_append]
      exact Or.inl (Or.inr hq)
    · intro _ q hq
      rw [hp] at hq
      simp only [List.mem_append]
      exact Or.inl hq
  · refine ⟨by rw [hw], by rw [hw]; norm_num, Or.inl hw, ?_, ?_⟩
    · intro _ q hq
      rw [hp] at hq
      simp only [List.mem_append]
      exact Or.inr hq
    · intro _ q hq
      rw [hp] at hq
      simp only [List.mem_append]
      exact Or.inr hq

/-- Scanning a phrase against itself scores `weight + 20`. -/
theorem score_phrase_self (fa : Bool) (fr : Str → Str → ℕ) {w : ℚ} (hw : 7 ≤ w) (p : Str) :
    score_phrase fa fr w p p = w + 20 := by
  unfold score_phrase
  simp only []
  rw [if_pos (trivial : True)]
  rw [if_neg (show ¬(w + 20 = 0 ∧ fa = true) from by rintro ⟨h1, -⟩; linarith)]

/-- Against a catalog phrase as utterance, every other catalog phrase
scores strictly below the exact-match value. -/
theorem score_phrase_lt {fa : Bool} {fr : Str → Str → ℕ} (hfr : ∀ a b, fr a b ≤ 100)
    {e' ce : CommandEntry} (he' : e' ∈ wake_words) (hce : ce ∈ wake_words)
    {p' p : Str} (hp' : p' ∈ e'.phrases) (hp : p ∈ ce.phrases) (hne : p' ≠ p) :
    score_phrase fa fr e'.weight p' p < ce.weight + 20 := by
  obtain ⟨hce7, -, hce78, hceLow, hce7list⟩ := wake_words_B ce hce
  obtain ⟨he7, he18, -, -, -⟩ := wake_words_B e' he'
  have hA := wake_words_A e' he'
  have hm3 : ((pySplit p').filter (fun v => decide (v ∈ pySplit p))).length ≤ 3 := by
    have hgood := goodB_spec (catalog_phrases_good e' he' p' hp')
    exact le_trans (List.length_filter_le _ _) hgood.2.2.2.1
  have hm3q : (((pySplit p').filter (fun v => decide (v ∈ pySplit p))).length : ℚ) ≤ 3 := by
    exact_mod_cast hm3
  have hmnn : (0 : ℚ) ≤ (((pySplit p').filter (fun v => decide (v ∈ pySplit p))).length : ℚ) := by
    positivity
  have h27 : (27 : ℚ) ≤ ce.weight + 20 := by linarith
  unfold score_phrase
  simp only []
  rw [if_neg hne]
  by_cases hsub : containsSub p p' = true
  · rw [if_pos hsub]
    rw [if_neg (show ¬(e'.weight + 10 = 0 ∧ fa = true) from by rintro ⟨h1, -⟩; linarith)]
    rcases hA with ⟨hw18, hsub18⟩ | hw15
    · by_cases hle8 : ce.weight ≤ 8
      · exfalso
        have hpl := hceLow hle8 p hp
        have hfalse := low_weight_no_substring p hpl p' (hsub18 p' hp')
        rw [hfalse] at hsub
        exact absurd hsub (by simp)
      · push_neg at hle8
        rw [hw18]
        linarith
    · linarith
  · rw [if_neg hsub]
    by_cases h2m : 2 ≤ ((pySplit p').filter (fun v => decide (v ∈ pySplit p))).length
    · rw [if_pos h2m]
      rw [if_neg (show ¬(e'.weight +
          3 * (((pySplit p').filter (fun v => decide (v ∈ pySplit p))).length : ℚ) = 0 ∧
          fa = true) from by rintro ⟨h1, -⟩; linarith)]
      rcases hA with ⟨hw18, hsub18⟩ | hw15
      · rcases hce78 with hce7e | hce8
        · have hpl := hce7list hce7e p hp
          have hm2 := w7_token_bound p hpl p' (hsub18 p' hp')
          have hm2q : (((pySplit p').filter (fun v => decide (v ∈ pySplit p))).length : ℚ) ≤ 2 := by
            exact_mod_cast hm2
          rw [hw18, hce7e]
          linarith
        · rw [hw18]
          linarith
      · linarith
    · rw [if_neg h2m]
      by_cases h1m : ((pySplit p').filter (fun v => decide (v ∈ pySplit p))).length = 1 ∧
          (pySplit p').length ≤ 2
      · rw [if_pos h1m]
        rw [if_neg (show ¬(e'.weight + 1 = 0 ∧ fa = true) from by rintro ⟨h1, -⟩; linarith)]
        linarith
      · rw [if_neg h1m]
        by_cases hfa : fa = true
        · rw [if_pos ⟨rfl, hfa⟩]
          by_cases h85 : 85 ≤ fr p p'
          · rw [if_pos h85]
            have h100 : (fr p p' : ℚ) ≤ 100 := by exact_mod_cast hfr p p'
            have hdiv : (fr p p' : ℚ) / 20 ≤ 5 := by linarith
            linarith
          · rw [if_neg h85]
            linarith
        · rw [if_neg (show ¬((0 : ℚ) = 0 ∧ fa = true) from fun h => hfa h.2)]
          linarith

/-- The phrase `"help menu"` never enters the two expanded phrase
sets. -/
theorem help_menu_not_in_expansion :
    ∀ seeds, seeds = next_seeds ∨ seeds = previous_seeds →
      ("help menu".toList) ∉ (expand_with_variants seeds).getD [] := by
  intro seeds hseeds hmem
  have hsome : (expand_with_variants seeds).isSome := by
    rcases hseeds with rfl | rfl
    · exact expand_next_isSome
    · exact expand_previous_isSome
  obtain ⟨res, hres⟩ := Option.isSome_iff_exists.mp hsome
  rw [hres, Option.getD_some] at hmem
  rcases (mem_expand_with_variants hres _).mp hmem with h | ⟨q, hq, hlen2, hv⟩
  · rcases hseeds with rfl | rfl
    · exact absurd h (by decide)
    · exact absurd h (by decide)
  · have hq' : q ∈ next_seeds ++ previous_seeds := by
      rcases hseeds with rfl | rfl
      · exact List.mem_append_left _ hq
      · exact List.mem_append_right _ hq
    have hWF : ("help menu".toList) = [] ∨ WFov tokenUniverse ("help menu".toList) := by
      rcases hv with ⟨vs, hg, hpv⟩ | ⟨rs, hr, hpr⟩
      · exact Or.inr (WFov_mono
          (fun t ht => jav_subset_universe t (raw_subset_jav t ht))
          (seed_gen_WF hq' hg _ hpv))
      · exact seed_regional_WF hq' hr _ hpr
    rcases hWF with hnil | hWF
    · exact absurd hnil (by decide)
    · obtain ⟨ts, hx, hne, hlen, hmem2⟩ := hWF
      have hsplit : pySplit ("help menu".toList) = ts := by
        rw [hx]
        exact spaceJoin_split hne hlen (fun t ht =>
          ⟨universe_token_ne_nil (hmem2 t ht), universe_token_no_ws (hmem2 t ht)⟩)
      have hdec : pySplit ("help menu".toList) = [("help".toList), ("menu".toList)] := by decide
      have hts : ts = [("help".toList), ("menu".toList)] := hsplit.symm.trans hdec
      have hmenu : ("menu".toList) ∈ tokenUniverse := by
        apply hmem2
        rw [hts]
        exact List.mem_cons_of_mem _ (List.mem_cons_self _ _)
      exact absurd hmenu (by set_option maxRecDepth 40000 in decide)

/-- Among catalog entries, only `help` owns the phrase `"help menu"`. -/
theorem help_menu_excl : ∀ e' ∈ wake_words, ("help menu".toList) ∈ e'.phrases →
    e' = ⟨"help".toList, help_phrases, 8, "Tampilkan bantuan".toList⟩ := by
  intro e' he' hp'
  have hpair := List.mem_map_of_mem (fun e => (e.id, e.phrases)) he'
  have hmap : wake_words.map (fun e => (e.id, e.phrases)) =
      [("next".toList, (expand_with_variants next_seeds).getD []),
       ("previous".toList, (expand_with_variants previous_seeds).getD []),
       ("open_slideshow".toList, open_slideshow_phrases),
       ("close_slideshow".toList, close_slideshow_phrases),
       ("help".toList, help_phrases),
       ("stop".toList, stop_phrases),
       ("test".toList, test_phrases),
       ("noise".toList, noise_phrases),
       ("popup_on".toList, popup_on_phrases),
       ("popup_off".toList, popup_off_phrases),
       ("caption_on".toList, caption_on_phrases),
       ("caption_off".toList, caption_off_phrases),
       ("change_language".toList, change_language_phrases),
       ("show_analytics".toList, show_analytics_phrases)] := by
    simp only [wake_words, List.map_cons, List.map_nil]
  rw [hmap] at hpair
  simp only [List.mem_cons, List.not_mem_nil, or_false, Prod.mk.injEq] at hpair
  rcases hpair with ⟨hid, hph⟩ | ⟨hid, hph⟩ | ⟨hid, hph⟩ | ⟨hid, hph⟩ | ⟨hid, hph⟩ |
    ⟨hid, hph⟩ | ⟨hid, hph⟩ | ⟨hid, hph⟩ | ⟨hid, hph⟩ | ⟨hid, hph⟩ | ⟨hid, hph⟩ |
    ⟨hid, hph⟩ | ⟨hid, hph⟩ | ⟨hid, hph⟩
  · rw [hph] at hp'
    exact absurd hp' (help_menu_not_in_expansion next_seeds (Or.inl rfl))
  · rw [hph] at hp'
    exact absurd hp' (help_menu_not_in_expansion previous_seeds (Or.inr rfl))
  · rw [hph] at hp'; exact absurd hp' (by decide)
  · rw [hph] at hp'; exact absurd hp' (by decide)
  · simp only [wake_words, List.mem_cons, List.not_mem_nil, or_false] at he'
    rcases he' with hk | hk | hk | hk | hk | hk | hk | hk | hk | hk | hk | hk | hk | hk
    · rw [hk] at hid; exact absurd hid (by decide)
    · rw [hk] at hid; exact absurd hid (by decide)
    · rw [hk] at hid; exact absurd hid (by decide)
    · rw [hk] at hid; exact absurd hid (by decide)
    · exact hk
    · rw [hk] at hid; exact absurd hid (by decide)
    · rw [hk] at hid; exact absurd hid (by decide)
    · rw [hk] at hid; exact absurd hid (by decide)
    · rw [hk] at hid; exact absurd hid (by decide)
    · rw [hk] at hid; exact absurd hid (by decide)
    · rw [hk] at hid; exact absurd hid (by decide)
    · rw [hk] at hid; exact absurd hid (by decide)
    · rw [hk] at hid; exact absurd hid (by decide)
    · rw [hk] at hid; exact absurd hid (by decide)
  · rw [hph] at hp'; exact absurd hp' (by decide)
  · rw [hph] at hp'; exact absurd hp' (by decide)
  · rw [hph] at hp'; exact absurd hp' (by decide)
  · rw [hph] at hp'; exact absurd hp' (by decide)
  · rw [hph] at hp'; exact absurd hp' (by decide)
  · rw [hph] at hp'; exact absurd hp' (by decide)
  · rw [hph] at hp'; exact absurd hp' (by decide)
  · rw [hph] at hp'; exact absurd hp' (by decide)
  · rw [hph] at hp'; exact absurd hp' (by decide)

/-- C4: for every catalog command `ce` and phrase `p` of its expanded
phrase set, when cooldown is inactive and `p` is a phrase of no other
catalog command, `detect(p)` returns `Matched` with command `ce.id` and
score `ce.weight + 20` (the fuzzy backend, when consulted at all, is a
percentage ratio bounded by 100). -/
theorem c4_exact_phrase_match (fa : Bool) (fr : Str → Str → ℕ) (now : ℚ)
    (st : DetectorState) (ce : CommandEntry) (p : Str)
    (hfr : ∀ a b, fr a b ≤ 100)
    (hce : ce ∈ wake_words) (hp : p ∈ ce.phrases)
    (hexcl : ∀ e' ∈ wake_words, p ∈ e'.phrases → e' = ce)
    (hcool : ¬(now - st.last_execution_time < 2)) :
    ∃ st', detect fa fr now st p =
      (.matched ⟨ce.id, p, ce.weight + 20, ce.weight + 20, ce.description⟩, st') := by
  obtain ⟨hval, hlow, hstrip, hsplen, hlen2⟩ := goodB_spec (catalog_phrases_good ce hce p hp)
  obtain ⟨hw7, hw18, -, -, -⟩ := wake_words_B ce hce
  have htl : pyStrip (pyLower p) = p := by rw [hlow, hstrip]
  have hshort : ¬(p = [] ∨ (pyStrip p).length < 2) := by
    push_neg
    refine ⟨?_, ?_⟩
    · intro h
      rw [h] at hlen2
      simp at hlen2
    · rw [hstrip]
      omega
  have hsc := score_phrase_self fa fr hw7 p
  set cSelf : Candidate := ⟨ce.id, p, ce.weight + 20, ce.weight + 20, ce.description⟩ with hcs
  have hmem : cSelf ∈ scan_results fa fr p := by
    unfold scan_results
    refine List.mem_flatMap.mpr ⟨ce, hce, List.mem_filterMap.mpr ⟨p, hp, ?_⟩⟩
    simp only []
    rw [hsc]
    rw [if_pos (show (0 : ℚ) < ce.weight + 20 by linarith)]
  cases hrank : rank_results p (scan_results fa fr p) with
  | nil =>
    exfalso
    have hperm := List.mergeSort_perm (scan_results fa fr p) (cand_le p)
    rw [rank_results_eq] at hrank
    rw [hrank] at hperm
    rw [hperm.symm.eq_nil] at hmem
    simp at hmem
  | cons best rest =>
    have hbmem : best ∈ scan_results fa fr p := by
      have h0 : best ∈ rank_results p (scan_results fa fr p) := by
        rw [hrank]
        exact List.mem_cons_self _ _
      rw [rank_results_eq] at h0
      exact (List.mergeSort_perm _ _).mem_iff.mp h0
    obtain ⟨e', he', p', hp'2, hxeq, hpos⟩ := scan_results_mem hbmem
    by_cases hpp : p' = p
    · subst hpp
      have he'ce := hexcl e' he' hp'2
      subst he'ce
      rw [hsc] at hxeq
      rw [← hcs] at hxeq
      have hdet := detect_matched_eval fa fr now st p' p' hval hcool hshort
        (by rw [htl]; exact hrank)
        (by rw [hxeq, hcs]; show (8 : ℚ) ≤ e'.weight + 20; linarith)
        (by rw [hxeq, hcs]
            exact (wake_words_entry_facts e' he').2.2)
      rw [hxeq] at hdet
      exact ⟨_, hdet⟩
    · exfalso
      have hlt := @score_phrase_lt fa fr hfr e' ce he' hce p' p hp'2 hp hpp
      have hcmem : cSelf ∈ best :: rest := by
        rw [← hrank, rank_results_eq]
        exact (List.mergeSort_perm _ _).mem_iff.mpr hmem
      rcases List.mem_cons.mp hcmem with hbc | hcrest
      · apply hpp
        have hph : best.phrase = p := by
          rw [← hbc, hcs]
        rw [hxeq] at hph
        exact hph
      · have hpw := rank_results_pairwise p (scan_results fa fr p)
        rw [hrank] at hpw
        have hle := (List.pairwise_cons.mp hpw).1 cSelf hcrest
        rw [cand_le, key_le_iff] at hle
        simp only [sort_key] at hle
        have hbs : best.score = score_phrase fa fr e'.weight p' p := by rw [hxeq]
        have hcss : cSelf.score = ce.weight + 20 := by rw [hcs]
        have hss : cSelf.score ≤ best.score := by
          rcases hle with h | ⟨h, -⟩
          · linarith
          · linarith
        rw [hbs, hcss] at hss
        linarith

/-- C4 witness: on a fresh detector at time 10, `detect("help menu")`
matches the `help` command with score `8 + 20`, the phrase `"help menu"`
being seeded for `help` and owned by no other command. -/
theorem c4_exact_phrase_match_witness :
    (⟨"help".toList, help_phrases, 8, "Tampilkan bantuan".toList⟩ : CommandEntry) ∈ wake_words ∧
    ("help menu".toList) ∈ help_phrases ∧
    ∃ st', detect false (fun _ _ => 0) 10 initDetector ("help menu".toList) =
      (.matched ⟨"help".toList, "help menu".toList, 8 + 20, 8 + 20,
        "Tampilkan bantuan".toList⟩, st') := by
  have hm : (⟨"help".toList, help_phrases, 8, "Tampilkan bantuan".toList⟩ : CommandEntry) ∈
      wake_words :=
    List.mem_cons_of_mem _ (List.mem_cons_of_mem _ (List.mem_cons_of_mem _
      (List.mem_cons_of_mem _ (List.mem_cons_self _ _))))
  refine ⟨hm, by decide, ?_⟩
  exact c4_exact_phrase_match false (fun _ _ => 0) 10 initDetector
    ⟨"help".toList, help_phrases, 8, "Tampilkan bantuan".toList⟩ ("help menu".toList)
    (fun a b => Nat.zero_le 100) hm (by decide) help_menu_excl
    (by show ¬((10 : ℚ) - 0 < 2); norm_num)
